import Mathlib

/-
  A verification development for the `erlterms` codec
  (Erlang external term format: encoder/decoder).

  The Python source is shallowly embedded: byte strings become `List Nat`
  (each element < 256 for genuine byte strings), Python's unbounded `int`
  becomes `Int`/`Nat`, the dynamically-typed term universe becomes the
  inductive type `Term`, exceptions become `Except DErr`, and the two
  external collaborators (`zlib` compression / decompression and the
  `cPickle` loads fallback) become explicit function parameters, exactly
  as they appear as default parameters of `decode_term` in the source.
-/

namespace ErlTerms

/-- The universe of values the codec manipulates, one constructor per
Python runtime type distinguished by the source's `isinstance` dispatch:
`int`/`long`, `float` (kept as its 8-byte IEEE-754 big-endian bit
pattern), `Atom` (a `str` subclass), plain `str` (a byte string in
Python 2), `unicode`/`String` (a sequence of code points), `list`,
`ImproperList` (a `list` subclass with a `tail` slot), `tuple`, `bool`,
`None`, and `OpaqueObject` (raw data bytes plus a language `Atom`). -/
inductive Term where
  | int (n : Int)
  | float (bits : Nat)
  | atom (name : List Nat)
  | bytes (data : List Nat)
  | charlist (codes : List Nat)
  | list (elems : List Term)
  | improper (elems : List Term) (tl : Term)
  | tuple (elems : List Term)
  | bool (b : Bool)
  | none
  | opaqueObject (data : List Nat) (language : List Nat)

/-- ASCII bytes of a string literal, the form in which the source's
string constants (atom texts, the opaque marker) appear on the wire. -/
def strBytes (s : String) : List Nat := s.toList.map Char.toNat

/-- The reserved opaque-marker atom text `$erlport.opaque`. -/
def markerBytes : List Nat := strBytes "$erlport.opaque"

/-- The host language identifier `python` (`_python = Atom("python")`). -/
def pythonBytes : List Nat := strBytes "python"

/-- The peer language identifier `erlang`. -/
def erlangBytes : List Nat := strBytes "erlang"

end ErlTerms

namespace ErlTerms

/-! ## Sizes (for induction) -/

mutual
/-- Structural size of a term, used as the measure for strong induction. -/
def tsize : Term → Nat
  | .int _ => 1
  | .float _ => 1
  | .atom _ => 1
  | .bytes _ => 1
  | .charlist _ => 1
  | .list es => 1 + tsizeList es
  | .improper es tl => 1 + tsizeList es + tsize tl
  | .tuple es => 1 + tsizeList es
  | .bool _ => 1
  | .none => 1
  | .opaqueObject _ _ => 1

/-- Sum of the sizes of a list of terms. -/
def tsizeList : List Term → Nat
  | [] => 0
  | t :: ts => tsize t + tsizeList ts
end

/-! ## Fixed-width pack/unpack helpers

The source binds `Struct(...)` pack/unpack callables; big-endian
multi-byte integers throughout (`>H`, `>I`, `>i`, `>d`). -/

/-- `Struct(">H").pack`: 2-byte big-endian (caller guarantees `n ≤ 65535`). -/
def int2BE (n : Nat) : List Nat := [n / 256 % 256, n % 256]

/-- `Struct(">I").pack`: 4-byte big-endian. -/
def int4BE (n : Nat) : List Nat :=
  [n / 16777216 % 256, n / 65536 % 256, n / 256 % 256, n % 256]

/-- `Struct(">i").pack`: 4-byte big-endian two's complement of a signed
value in `[-2^31, 2^31)`. -/
def signedInt4BE (i : Int) : List Nat := int4BE ((i % 4294967296).toNat)

/-- `Struct(">Q")`-style 8-byte big-endian, used for the IEEE-754 bit
pattern of `Struct(">d").pack`. -/
def int8BE (n : Nat) : List Nat :=
  [n / 72057594037927936 % 256, n / 281474976710656 % 256,
   n / 1099511627776 % 256, n / 4294967296 % 256,
   n / 16777216 % 256, n / 65536 % 256, n / 256 % 256, n % 256]

/-- Big-endian unpack (`Struct(">H").unpack`, `Struct(">I").unpack`, and
the byte pattern of `Struct(">d").unpack`): fold over the byte slice. -/
def beVal (l : List Nat) : Nat := l.foldl (fun a b => a * 256 + b) 0

/-- `Struct(">i").unpack`: reinterpret the 4-byte big-endian value as a
two's complement signed integer. -/
def signedOfBE4 (l : List Nat) : Int :=
  let v := beVal l
  if v < 2147483648 then (v : Int) else (v : Int) - 4294967296

/-! ## Bignum magnitude codec -/

/-- One step of the encoder's magnitude loop
(`append(term & 0xff); term >>= 8`), iterated with fuel so the
definition is structurally recursive (`&0xff` is `% 256` and `>>= 8` is
`/ 256` on nonnegative values). The fuel never runs out when it starts
at the value itself, because the value strictly shrinks every round. -/
def magDigitsF : Nat → Nat → List Nat
  | 0, _ => []
  | fuel + 1, n => if n = 0 then [] else n % 256 :: magDigitsF fuel (n / 256)

/-- Little-endian base-256 magnitude digits of a nonnegative value:
the list built by `while term: bytes.append(term & 0xff); term >>= 8`. -/
def magDigits (n : Nat) : List Nat := magDigitsF n n

/-- The decoder's bignum accumulation loop
`for i in array("B", tail[length-1::-1]): n = (n << 8) | i`: a fold over
the reversed (big-endian-first) magnitude bytes. -/
def bigVal (l : List Nat) : Nat :=
  l.reverse.foldl (fun n i => (n <<< 8) ||| i) 0

/-! ## Python string-equality on decoded terms

Python `==` between a decoded term and a `str` constant (`name ==
"true"`, `lst[0] == opaque`, `language == "python"`) is true exactly
when the decoded value is itself string-like (`str`, its subclass
`Atom`, or `unicode`) with the same characters. -/

/-- Whether Python `t == s` holds for a `str` constant `s`. -/
def pyStrEq (t : Term) (s : List Nat) : Bool :=
  match t with
  | .atom n => n = s
  | .bytes d => d = s
  | .charlist c => c = s
  | _ => false

/-- Whether a value is a Python `list` instance (`list` or its subclass
`ImproperList`), as tested by `isinstance(tail, list)`. -/
def isPyList (t : Term) : Bool :=
  match t with
  | .list _ => true
  | .improper _ _ => true
  | _ => false

end ErlTerms

namespace ErlTerms

/-! ## Encoder (`encode_term`, `encode`)

`Option.none` stands for the hard errors the encoder can raise
(`ValueError` for oversized lengths, `struct.error` for unpackable
widths). The `cPickle.dumps` fallback of the source's final lines is
unreachable here because every `Term` constructor has a native branch. -/

/-- Integer branch of `encode_term` (`isinstance(term, (int, long))`):
small-integer form for `0 ≤ term ≤ 255`, 4-byte signed form for the
int32 range, otherwise sign plus little-endian magnitude digits with
the small (`n`) or large (`o`) bignum tag. -/
def encInt (n : Int) : Option (List Nat) :=
  if 0 ≤ n ∧ n ≤ 255 then
    Option.some [97, n.toNat]
  else if -2147483648 ≤ n ∧ n ≤ 2147483647 then
    Option.some (98 :: signedInt4BE n)
  else if (magDigits n.natAbs).length ≤ 255 then
    Option.some (110 :: (magDigits n.natAbs).length
      :: (if 0 ≤ n then 0 else 1) :: magDigits n.natAbs)
  else if (magDigits n.natAbs).length ≤ 4294967295 then
    Option.some (111 :: int4BE (magDigits n.natAbs).length
      ++ (if 0 ≤ n then 0 else 1) :: magDigits n.natAbs)
  else
    Option.none

/-- Atom branch of `encode_term`:
`char_int2_pack('d', len(term)) + term`. The `>H` pack would fail above
65535, though the `Atom` wrapper already guarantees a length `≤ 255`. -/
def encAtom (name : List Nat) : Option (List Nat) :=
  if name.length ≤ 65535 then Option.some (100 :: int2BE name.length ++ name)
  else Option.none

/-- Binary (`str`) branch of `encode_term`:
`char_int4_pack('m', length) + term`, with lengths above `2^32 - 1`
rejected (`invalid binary length`). -/
def encBytesE (data : List Nat) : Option (List Nat) :=
  if data.length ≤ 4294967295 then Option.some (109 :: int4BE data.length ++ data)
  else Option.none

/-- The `try`-block of the list branch: the compact-string attempt
`array('B', term).tostring()`, which requires every element to be an
`int`/`long` instance (so Python booleans qualify, coerced to 1 / 0)
with a value in `[0, 255]`; any other element raises `TypeError` or
`OverflowError`, making the attempt fail. -/
def compactBytes : List Term → Option (List Nat)
  | [] => Option.some []
  | .int n :: ts =>
      if 0 ≤ n ∧ n ≤ 255 then (compactBytes ts).map (n.toNat :: ·)
      else Option.none
  | .bool b :: ts => (compactBytes ts).map ((if b then 1 else 0) :: ·)
  | _ => Option.none

/-- The byte `array('B', term)` stores for one accepted element:
Python's `bool` is an `int` subclass, so `True` is stored as `1` and
`False` as `0`; an in-range `int` is stored as itself. -/
def pyByte : Term → Nat
  | .bool b => if b then 1 else 0
  | .int n => n.toNat
  | _ => 0

/-- Encoding of a single `unicode` code point, `encode_term(ord(c))`:
`ord` always yields a nonnegative `int`, so this is `encInt`. -/
def encCodePoint (c : Nat) : Option (List Nat) := encInt (Int.ofNat c)

/-- `"".join(map(encode_term, map(ord, term)))` for the general-list
form of a `unicode` string. -/
def encCodeSeq : List Nat → Option (List Nat)
  | [] => Option.some []
  | c :: cs => do
      let b ← encCodePoint c
      let bs ← encCodeSeq cs
      Option.some (b ++ bs)

mutual

/-- `encode_term(term)`: dispatch in the source's `isinstance` order —
tuple, `ImproperList` (before `list`), `list`, `unicode`, `Atom`
(before `str`), `str`, `True` / `False` (before the integer branch),
`int`/`long`, `float`, `None`, `OpaqueObject`. The `unicode` branch
re-encodes `map(ord, term)` through the list branch, and
`OpaqueObject.encode` emits its raw data verbatim for language
`erlang`, else the encoding of the 3-tuple
`(marker, language, data)`, here unfolded into its leaf encodings. -/
def encode_term : Term → Option (List Nat)
  | .tuple es =>
      if es.length ≤ 255 then do
        let body ← encodeSeq es
        Option.some (104 :: es.length :: body)
      else if es.length ≤ 4294967295 then do
        let body ← encodeSeq es
        Option.some (105 :: int4BE es.length ++ body)
      else Option.none
  | .improper es tl =>
      if es.length ≤ 4294967295 then do
        let body ← encodeSeq es
        let tb ← encode_term tl
        Option.some (108 :: int4BE es.length ++ body ++ tb)
      else Option.none
  | .list es =>
      if es.length = 0 then Option.some [106]
      else if es.length ≤ 65535 then
        match compactBytes es with
        | Option.some bs => Option.some (107 :: int2BE es.length ++ bs)
        | Option.none => do
            let body ← encodeSeq es
            Option.some (108 :: int4BE es.length ++ body ++ [106])
      else if es.length > 4294967295 then Option.none
      else do
        let body ← encodeSeq es
        Option.some (108 :: int4BE es.length ++ body ++ [106])
  | .charlist cs =>
      if cs.length = 0 then Option.some [106]
      else if cs.length ≤ 65535 then
        if cs.all (· ≤ 255) then Option.some (107 :: int2BE cs.length ++ cs)
        else do
          let body ← encCodeSeq cs
          Option.some (108 :: int4BE cs.length ++ body ++ [106])
      else if cs.length > 4294967295 then Option.none
      else do
        let body ← encCodeSeq cs
        Option.some (108 :: int4BE cs.length ++ body ++ [106])
  | .atom name => encAtom name
  | .bytes data => encBytesE data
  | .bool b =>
      if b then Option.some (100 :: int2BE 4 ++ strBytes "true")
      else Option.some (100 :: int2BE 5 ++ strBytes "false")
  | .int n => encInt n
  | .float bits => Option.some (70 :: int8BE bits)
  | .none => Option.some (100 :: int2BE 9 ++ strBytes "undefined")
  | .opaqueObject data lang =>
      if lang = erlangBytes then Option.some data
      else do
        let m ← encAtom markerBytes
        let l ← encAtom lang
        let d ← encBytesE data
        Option.some (104 :: 3 :: m ++ l ++ d)

/-- `"".join(map(encode_term, term))`: concatenation of the encodings
of a sequence of child terms. -/
def encodeSeq : List Term → Option (List Nat)
  | [] => Option.some []
  | t :: ts => do
      let b ← encode_term t
      let bs ← encodeSeq ts
      Option.some (b ++ bs)

end

/-- The `compressed` argument of `encode`: `False`, `True`, or an
explicit integer level. Python truthiness makes `False` and `0` skip
the compression attempt, and `True` selects the default level 6. -/
inductive Compression where
  | disabled
  | enabled
  | level (n : Nat)

/-- Python truthiness of the `compressed` argument (`if compressed:`). -/
def Compression.truthy : Compression → Bool
  | .disabled => false
  | .enabled => true
  | .level n => n != 0

/-- The zlib level handed to `compress` once the attempt is made
(`if compressed is True: compressed = 6`). -/
def Compression.levelValue : Compression → Nat
  | .disabled => 0
  | .enabled => 6
  | .level n => n

/-- `encode(term, compressed)`: always produce the canonical encoding;
when compression is requested, keep the compressed envelope
(version byte, `P` marker, 4-byte big-endian uncompressed length,
payload) only when `len(zlib_term) + 5 <= len(encoded_term)`, else emit
the version byte plus the plain encoding. `compressFn` stands for
`zlib.compress(data, level)`, an external collaborator. -/
def encode (compressFn : Nat → List Nat → List Nat) (term : Term)
    (c : Compression) : Option (List Nat) := do
  let e ← encode_term term
  if c.truthy then
    if (compressFn c.levelValue e).length + 5 ≤ e.length then
      -- the `>I` pack of the uncompressed length requires it to fit 4 bytes
      if e.length ≤ 4294967295 then
        Option.some (131 :: 80 :: int4BE e.length ++ compressFn c.levelValue e)
      else Option.none
    else Option.some (131 :: e)
  else Option.some (131 :: e)

end ErlTerms

namespace ErlTerms

/-! ## Decoder (`decode_term`, `decode`)

The recursion of `decode_term` is driven by a fuel argument so that the
definition is structural (and therefore evaluates inside the kernel).
`DErr.fuelOut` marks fuel exhaustion; `decode_term` supplies
`buffer length + 1` fuel, which is proved sufficient below
(`decode_term_no_fuelOut`), so the embedded function is total exactly
like the source. `loads` stands for `cPickle.loads`, the caller-side
deserializer the source installs as `OpaqueObject.decode`'s fallback
for language `python`. -/

/-- Decode-side outcomes: `IncompleteData`, the `ValueError` raised for
a wrong leading version byte (`unknown protocol version`), every other
hard error (`ValueError` / `TypeError`), and the fuel marker. -/
inductive DErr where
  | incomplete
  | badVersion
  | invalid
  | fuelOut
  deriving DecidableEq

/-- `OpaqueObject.decode(data, language)` applied to the second and
third elements of a decoded marker tuple: language `python` hands the
data bytes to `loads`; any other language builds an
`OpaqueObject(data, language)`, whose constructor demands `str` data
and an `Atom` language (`TypeError` otherwise). An `Atom` is itself a
`str`, so atom-typed data is accepted wherever `str` data is. -/
def decodeOpaque (loads : List Nat → Term) (data : Term) (language : Term) :
    Except DErr Term :=
  if pyStrEq language pythonBytes then
    match data with
    | .bytes d => Except.ok (loads d)
    | .atom d => Except.ok (loads d)
    | _ => Except.error DErr.invalid
  else
    match data, language with
    | .bytes d, .atom l => Except.ok ( Term.opaqueObject d l)
    | .atom d, .atom l => Except.ok ( Term.opaqueObject d l)
    | _, _ => Except.error DErr.invalid

/-- The element loop of the `lhi` branch:
`while length > 0: term, tail = decode_term(tail); append(term)`. -/
def decodeSeq (dec : List Nat → Except DErr (Term × List Nat)) :
    Nat → List Nat → Except DErr (List Term × List Nat)
  | 0, buf => Except.ok ([], buf)
  | n + 1, buf => do
      let (t, rest) ← dec buf
      let (ts, rest2) ← decodeSeq dec n rest
      Except.ok (t :: ts, rest2)

/-- The result assembly shared by the tuple tags after the element
loop: a 3-element tuple whose first element compares equal to the
reserved marker atom is handed to `OpaqueObject.decode`
(`decode_opaque(lst[2], lst[1])`); otherwise `tuple(lst)`. -/
def finishTuple (loads : List Nat → Term) (lst : List Term)
    (rest : List Nat) : Except DErr (Term × List Nat) :=
  match lst with
  | [a, b, c] =>
      if pyStrEq a markerBytes then do
        let t ← decodeOpaque loads c b
        Except.ok (t, rest)
      else Except.ok (Term.tuple lst, rest)
  | _ => Except.ok (Term.tuple lst, rest)

/-- `decode_term(string)`: single-term recursive parser, dispatching on
the tag byte. Every length-prefixed form checks the buffer's length
first and signals `IncompleteData` when it falls short; unknown tags
are the final `ValueError("unsupported data")`. -/
def decodeTermF (loads : List Nat → Term) : Nat → List Nat →
    Except DErr (Term × List Nat)
  | 0, _ => Except.error DErr.fuelOut
  | _ + 1, [] => Except.error DErr.incomplete
  | fuel + 1, tag :: rest1 =>
      if tag = 100 then
        -- ATOM_EXT: 2-byte length `L`, then the name
        -- `string[3:length]` with `length = L + 3`
        if (tag :: rest1).length < 3 then Except.error DErr.incomplete
        else if (tag :: rest1).length < beVal (rest1.take 2) + 3 then
          Except.error DErr.incomplete
        else if ((tag :: rest1).take (beVal (rest1.take 2) + 3)).drop 3
            = strBytes "true" then
          Except.ok (Term.bool true, (tag :: rest1).drop (beVal (rest1.take 2) + 3))
        else if ((tag :: rest1).take (beVal (rest1.take 2) + 3)).drop 3
            = strBytes "false" then
          Except.ok (Term.bool false, (tag :: rest1).drop (beVal (rest1.take 2) + 3))
        else if ((tag :: rest1).take (beVal (rest1.take 2) + 3)).drop 3
            = strBytes "undefined" then
          Except.ok (Term.none, (tag :: rest1).drop (beVal (rest1.take 2) + 3))
        else if (((tag :: rest1).take (beVal (rest1.take 2) + 3)).drop 3).length ≤ 255 then
          Except.ok (Term.atom (((tag :: rest1).take (beVal (rest1.take 2) + 3)).drop 3),
            (tag :: rest1).drop (beVal (rest1.take 2) + 3))
        else Except.error DErr.invalid   -- `Atom(name)` raises ValueError
      else if tag = 106 then
        -- NIL_EXT
        Except.ok (Term.list [], rest1)
      else if tag = 107 then
        -- STRING_EXT: 2-byte length, then raw bytes, decoded to an int list
        if (tag :: rest1).length < 3 then Except.error DErr.incomplete
        else if (tag :: rest1).length < beVal (rest1.take 2) + 3 then
          Except.error DErr.incomplete
        else
          Except.ok
            (Term.list ((((tag :: rest1).take (beVal (rest1.take 2) + 3)).drop 3).map
              (fun b => Term.int (Int.ofNat b))),
             (tag :: rest1).drop (beVal (rest1.take 2) + 3))
      else if tag = 104 then
        -- SMALL_TUPLE_EXT: 1-byte arity
        match rest1 with
        | [] => Except.error DErr.incomplete
        | arity :: tail => do
            let (lst, rest) ← decodeSeq (decodeTermF loads fuel) arity tail
            finishTuple loads lst rest
      else if tag = 105 then
        -- LARGE_TUPLE_EXT: 4-byte arity
        match rest1 with
        | a :: b :: c :: d :: tail => do
            let (lst, rest) ← decodeSeq (decodeTermF loads fuel) (beVal [a, b, c, d]) tail
            finishTuple loads lst rest
        | _ => Except.error DErr.incomplete
      else if tag = 108 then
        -- LIST_EXT: 4-byte length, elements, then nil or an improper tail
        match rest1 with
        | a :: b :: c :: d :: tail => do
            let (lst, rest) ← decodeSeq (decodeTermF loads fuel) (beVal [a, b, c, d]) tail
            match rest with
            | [] => Except.error DErr.incomplete
            | 106 :: r2 => Except.ok (Term.list lst, r2)
            | _ => do
                let (tl, r3) ← decodeTermF loads fuel rest
                -- `ImproperList(lst, improper_tail)` constructor validation
                if lst.isEmpty then Except.error DErr.invalid
                else if isPyList tl then Except.error DErr.invalid
                else Except.ok (Term.improper lst tl, r3)
        | _ => Except.error DErr.incomplete
      else if tag = 97 then
        -- SMALL_INTEGER_EXT
        match rest1 with
        | v :: rest => Except.ok (Term.int v, rest)
        | [] => Except.error DErr.incomplete
      else if tag = 98 then
        -- INTEGER_EXT: 4-byte signed
        match rest1 with
        | a :: b :: c :: d :: rest => Except.ok (Term.int (signedOfBE4 [a, b, c, d]), rest)
        | _ => Except.error DErr.incomplete
      else if tag = 109 then
        -- BINARY_EXT: 4-byte length, then raw bytes
        if (tag :: rest1).length < 5 then Except.error DErr.incomplete
        else if (tag :: rest1).length < beVal (rest1.take 4) + 5 then
          Except.error DErr.incomplete
        else
          Except.ok (Term.bytes (((tag :: rest1).take (beVal (rest1.take 4) + 5)).drop 5),
            (tag :: rest1).drop (beVal (rest1.take 4) + 5))
      else if tag = 70 then
        -- NEW_FLOAT_EXT: 8-byte IEEE-754 pattern
        match rest1 with
        | a :: b :: c :: d :: e :: f :: g :: h :: rest =>
            Except.ok (Term.float (beVal [a, b, c, d, e, f, g, h]), rest)
        | _ => Except.error DErr.incomplete
      else if tag = 110 then
        -- SMALL_BIG_EXT: 1-byte digit count, 1-byte sign, LE magnitude
        match rest1 with
        | length :: sign :: tail =>
            if tail.length < length then Except.error DErr.incomplete
            else
              Except.ok
                (Term.int (if length ≠ 0 ∧ sign ≠ 0 then -(bigVal (tail.take length) : Int)
                  else (bigVal (tail.take length) : Int)),
                 tail.drop length)
        | _ => Except.error DErr.incomplete
      else if tag = 111 then
        -- LARGE_BIG_EXT: 4-byte digit count, 1-byte sign, LE magnitude
        match rest1 with
        | a :: b :: c :: d :: sign :: tail =>
            if tail.length < beVal [a, b, c, d] then Except.error DErr.incomplete
            else
              Except.ok
                (Term.int
                  (if beVal [a, b, c, d] ≠ 0 ∧ sign ≠ 0 then
                    -(bigVal (tail.take (beVal [a, b, c, d])) : Int)
                  else (bigVal (tail.take (beVal [a, b, c, d])) : Int)),
                 tail.drop (beVal [a, b, c, d]))
        | _ => Except.error DErr.incomplete
      else Except.error DErr.invalid

/-- `decode_term` with its fuel fixed to one more than the buffer
length, which `decode_term_no_fuelOut` proves is always enough. -/
def decode_term (loads : List Nat → Term) (buf : List Nat) :
    Except DErr (Term × List Nat) :=
  decodeTermF loads (buf.length + 1) buf

/-- `decode(string)`: top-level entry. The empty buffer is
`IncompleteData`; a leading byte other than `0x83` is the
`unknown protocol version` `ValueError`; a `P` marker introduces the
compressed envelope (at least 6 bytes, 4-byte big-endian uncompressed
size, the rest fed to the decompressor, whose output length must match
exactly and whose unused input becomes the outer remainder, the inner
remainder being discarded); otherwise one term is parsed directly.
`decompressFn` stands for the zlib `decompressobj` collaborator,
returning the decompressed output and the `unused_data`. -/
def decode (loads : List Nat → Term)
    (decompressFn : List Nat → List Nat × List Nat) (buf : List Nat) :
    Except DErr (Term × List Nat) :=
  match buf with
  | [] => Except.error DErr.incomplete
  | v :: rest =>
    if v ≠ 131 then Except.error DErr.badVersion
    else if rest.take 1 = [80] then
      if buf.length < 6 then Except.error DErr.incomplete
      else
        let (term_string, unused) := decompressFn (buf.drop 6)
        let uncompressed_size := beVal ((buf.drop 2).take 4)
        if term_string.length ≠ uncompressed_size then Except.error DErr.invalid
        else do
          let (term, _tail) ← decode_term loads term_string
          Except.ok (term, unused)
    else decode_term loads rest

end ErlTerms

namespace ErlTerms

/-! ## Representable, canonically-encoded terms

`canonB` cuts out the class of terms for which the uncompressed
encoding round-trips structurally: values constructible in the source
(the wrapper-type invariants: atom length, improper-list shape, byte
ranges, the format's `2^32 - 1` length ceilings) minus the
representational overlaps the codec deliberately collapses — the three
reserved atom texts (decoded as booleans / `None`), `unicode` strings
(decoded as lists of code points), booleans inside a compact-eligible
list (coerced to raw bytes), languages `python` / `erlang` on opaque
objects (resolved by `loads`, resp. emitted verbatim), and 3-tuples
headed by the reserved marker atom (reinterpreted on decode). -/

/-- Whether a term is a Python boolean. -/
def isBool (t : Term) : Bool :=
  match t with
  | .bool _ => true
  | _ => false

/-- Atom texts with reserved decode behavior. -/
def reservedAtom (name : List Nat) : Bool :=
  name = strBytes "true" || name = strBytes "false" || name = strBytes "undefined"

mutual

/-- Canonically-encoded representable terms (see the section comment). -/
def canonB : Term → Bool
  | .int n => (magDigits n.natAbs).length ≤ 4294967295
  | .float bits => bits < 18446744073709551616
  | .atom name =>
      name.length ≤ 255 && name.all (· < 256) && !reservedAtom name
  | .bytes d => d.length ≤ 4294967295 && d.all (· < 256)
  | .charlist _ => false
  | .list es =>
      es.length ≤ 4294967295 && canonList es
        && !(es.length ≤ 65535 && (compactBytes es).isSome && es.any isBool)
  | .improper es tl =>
      !es.isEmpty && es.length ≤ 4294967295 && canonList es
        && canonB tl && !isPyList tl
  | .tuple es =>
      es.length ≤ 4294967295 && canonList es
        && !(es.length = 3 && pyStrEq (es.headD Term.none) markerBytes)
  | .bool _ => true
  | .none => true
  | .opaqueObject data lang =>
      data.length ≤ 4294967295 && data.all (· < 256)
        && lang.length ≤ 255 && lang.all (· < 256)
        && !reservedAtom lang && lang != pythonBytes && lang != erlangBytes

/-- `canonB` on every element of a list. -/
def canonList : List Term → Bool
  | [] => true
  | t :: ts => canonB t && canonList ts

end

/-! ## Arithmetic bridges -/

/-- Bitwise-or of a value shifted left by `k` bits with a `k`-bit
value is plain addition: the shape of the accumulation step
`(n << 8) | i` of the bignum decoder. -/
theorem lor_pow_eq_add (k : Nat) :
    ∀ a b : Nat, b < 2 ^ k → ((2 ^ k * a) ||| b) = 2 ^ k * a + b := by
  induction k with
  | zero =>
      intro a b hb
      interval_cases b
      simp
  | succ k ih =>
      intro a b hb
      have hsplit : 2 * b.div2 + b.bodd.toNat = b := by
        have := Nat.bodd_add_div2 b
        omega
      have hb2 : b.div2 < 2 ^ k := by
        rw [Nat.div2_val]
        have hp : 2 ^ (k + 1) = 2 ^ k * 2 := Nat.pow_succ ..
        omega
      calc (2 ^ (k + 1) * a) ||| b
          = Nat.bit false (2 ^ k * a) ||| Nat.bit b.bodd b.div2 := by
            rw [Nat.bit_decomp]
            congr 1
            simp [Nat.bit, Nat.pow_succ]
            ring
        _ = Nat.bit (false || b.bodd) ((2 ^ k * a) ||| b.div2) :=
            Nat.lor_bit false (2 ^ k * a) b.bodd b.div2
        _ = Nat.bit b.bodd (2 ^ k * a + b.div2) := by
            rw [Bool.false_or, ih a b.div2 hb2]
        _ = 2 ^ (k + 1) * a + b := by
            rw [Nat.bit_val]
            have h2 : 2 ^ (k + 1) * a = 2 * (2 ^ k * a) := by
              rw [Nat.pow_succ]
              ring
            omega

end ErlTerms

namespace ErlTerms

/-- Peeling one low byte off the decoder's accumulation fold. -/
theorem bigVal_cons (d : Nat) (ds : List Nat) (hd : d < 256) :
    bigVal (d :: ds) = d + 256 * bigVal ds := by
  have h : (d :: ds).reverse = ds.reverse ++ [d] := by simp
  rw [bigVal, h, List.foldl_append]
  show (bigVal ds <<< 8) ||| d = d + 256 * bigVal ds
  have h256 : (2 : Nat) ^ 8 = 256 := by norm_num
  calc (bigVal ds <<< 8) ||| d
      = (2 ^ 8 * bigVal ds) ||| d := by rw [Nat.shiftLeft_eq, Nat.mul_comm]
    _ = 2 ^ 8 * bigVal ds + d := lor_pow_eq_add 8 (bigVal ds) d
        (lt_of_lt_of_eq hd h256.symm)
    _ = d + 256 * bigVal ds := by rw [h256]; omega

/-- The fueled magnitude loop is fuel-independent once the fuel covers
the value. -/
theorem magDigitsF_eq_of_le (fuel fuel' : Nat) :
    ∀ n : Nat, n ≤ fuel → n ≤ fuel' → magDigitsF fuel n = magDigitsF fuel' n := by
  induction fuel generalizing fuel' with
  | zero =>
      intro n h h'
      interval_cases n
      cases fuel' <;> simp [magDigitsF]
  | succ f ih =>
      intro n h h'
      match n, fuel' with
      | 0, 0 => rfl
      | 0, f' + 1 => simp [magDigitsF]
      | m + 1, 0 => omega
      | m + 1, f' + 1 =>
          simp only [magDigitsF, if_neg (Nat.succ_ne_zero m)]
          have hlt : (m + 1) / 256 ≤ f := by
            have := Nat.div_le_self (m + 1) 256
            have := Nat.div_lt_self (Nat.succ_pos m) (by norm_num : 1 < 256)
            omega
          have hlt' : (m + 1) / 256 ≤ f' := by
            have := Nat.div_lt_self (Nat.succ_pos m) (by norm_num : 1 < 256)
            omega
          exact congrArg _ (ih f' ((m + 1) / 256) hlt hlt')

/-- Unfolding equation for `magDigits` at a positive value. -/
theorem magDigits_pos (n : Nat) (hn : n ≠ 0) :
    magDigits n = n % 256 :: magDigits (n / 256) := by
  rcases n with _ | m
  · omega
  · show magDigitsF (m + 1) (m + 1) = _
    simp only [magDigitsF, if_neg (Nat.succ_ne_zero m)]
    exact congrArg _ (magDigitsF_eq_of_le m ((m + 1) / 256) ((m + 1) / 256)
      (by
        have := Nat.div_lt_self (Nat.succ_pos m) (by norm_num : 1 < 256)
        omega)
      le_rfl)

/-- The decoder's accumulation inverts the encoder's magnitude loop. -/
theorem bigVal_magDigits (n : Nat) : bigVal (magDigits n) = n := by
  induction n using Nat.strong_induction_on with
  | _ n ih =>
      rcases Nat.eq_zero_or_pos n with h0 | hpos
      · subst h0
        rfl
      · rw [magDigits_pos n (Nat.pos_iff_ne_zero.mp hpos)]
        rw [bigVal_cons _ _ (Nat.mod_lt n (by norm_num))]
        rw [ih (n / 256) (Nat.div_lt_self hpos (by norm_num))]
        omega

/-- Magnitude digits are bytes. -/
theorem magDigits_lt (n : Nat) : ∀ d ∈ magDigits n, d < 256 := by
  induction n using Nat.strong_induction_on with
  | _ n ih =>
      rcases Nat.eq_zero_or_pos n with h0 | hpos
      · subst h0
        intro d hd
        simp [magDigits, magDigitsF] at hd
      · rw [magDigits_pos n (Nat.pos_iff_ne_zero.mp hpos)]
        intro d hd
        rcases List.mem_cons.mp hd with h | h
        · subst h
          exact Nat.mod_lt n (by norm_num)
        · exact ih (n / 256) (Nat.div_lt_self hpos (by norm_num)) d h

/-- A positive value has at least one magnitude digit. -/
theorem magDigits_ne_nil (n : Nat) (hn : n ≠ 0) : magDigits n ≠ [] := by
  rw [magDigits_pos n hn]
  simp

/-- Big-endian 2-byte pack/unpack round-trip. -/
theorem beVal_int2BE (n : Nat) (h : n ≤ 65535) : beVal (int2BE n) = n := by
  simp only [int2BE, beVal, List.foldl]
  omega

/-- Big-endian 4-byte pack/unpack round-trip. -/
theorem beVal_int4BE (n : Nat) (h : n ≤ 4294967295) : beVal (int4BE n) = n := by
  simp only [int4BE, beVal, List.foldl]
  omega

/-- Big-endian 8-byte pack/unpack round-trip. -/
theorem beVal_int8BE (n : Nat) (h : n < 18446744073709551616) :
    beVal (int8BE n) = n := by
  simp only [int8BE, beVal, List.foldl]
  omega

/-- Signed 4-byte pack/unpack round-trip on the int32 range. -/
theorem signedOfBE4_signedInt4BE (i : Int)
    (h1 : -2147483648 ≤ i) (h2 : i ≤ 2147483647) :
    signedOfBE4 (signedInt4BE i) = i := by
  rw [signedInt4BE, signedOfBE4]
  have hmod : ((i % 4294967296).toNat : Int) = i % 4294967296 := by
    apply Int.toNat_of_nonneg
    exact Int.emod_nonneg i (by norm_num)
  have hlt : (i % 4294967296).toNat ≤ 4294967295 := by
    have := Int.emod_lt_of_pos i (show (0 : Int) < 4294967296 by norm_num)
    omega
  rw [beVal_int4BE _ hlt]
  rcases le_or_lt 0 i with hpos | hneg
  · have : i % 4294967296 = i := Int.emod_eq_of_lt hpos (by omega)
    simp only [this] at hmod ⊢
    rw [if_pos]
    · exact hmod
    · omega
  · have : i % 4294967296 = i + 4294967296 := by omega
    simp only [this] at hmod ⊢
    rw [if_neg]
    · omega
    · omega

end ErlTerms

namespace ErlTerms

/-- `finishTuple` never touches the remainder. -/
theorem finishTuple_ok_rest (loads : List Nat → Term) (lst : List Term)
    (rest : List Nat) (t : Term) (r : List Nat)
    (h : finishTuple loads lst rest = Except.ok (t, r)) : r = rest := by
  unfold finishTuple at h
  split at h
  · split at h
    · simp only [Bind.bind, Except.bind] at h
      rcases hd : decodeOpaque loads _ _ with e | v <;> rw [hd] at h
      · simp at h
      · cases h
        rfl
    · cases h
      rfl
  · cases h
    rfl

/-- The element loop only consumes input: on success the remainder is a
suffix of the starting buffer. -/
theorem decodeSeq_consume (dec : List Nat → Except DErr (Term × List Nat))
    (hdec : ∀ b t r, dec b = Except.ok (t, r) → r.length < b.length ∧ r <:+ b) :
    ∀ n buf ts r, decodeSeq dec n buf = Except.ok (ts, r) →
      r.length ≤ buf.length ∧ r <:+ buf := by
  intro n
  induction n with
  | zero =>
      intro buf ts r h
      simp only [decodeSeq] at h
      cases h
      exact ⟨le_rfl, List.suffix_rfl⟩
  | succ n ih =>
      intro buf ts r h
      simp only [decodeSeq, Bind.bind, Except.bind] at h
      rcases h1 : dec buf with e | ⟨t1, rest1⟩ <;> rw [h1] at h
      · simp at h
      · rcases h2 : decodeSeq dec n rest1 with e | ⟨ts2, rest2⟩ <;>
          simp only [h2] at h
        · simp at h
        · simp only [Except.ok.injEq, Prod.mk.injEq] at h
          obtain ⟨-, hr⟩ := h
          subst hr
          obtain ⟨hl1, hs1⟩ := hdec buf t1 rest1 h1
          obtain ⟨hl2, hs2⟩ := ih rest1 ts2 rest2 h2
          exact ⟨by omega, hs2.trans hs1⟩

end ErlTerms

namespace ErlTerms

theorem decodeTermF_consume (loads : List Nat → Term) :
    ∀ fuel buf t r,
      decodeTermF loads fuel buf = Except.ok (t, r) →
        r.length < buf.length ∧ r <:+ buf := by
  intro fuel
  induction fuel with
  | zero =>
      intro buf t r h
      unfold decodeTermF at h
      exact absurd h (by simp)
  | succ fuel ih =>
      intro buf t r h
      match buf with
      | [] =>
          unfold decodeTermF at h
          exact absurd h (by simp)
      | tag :: rest1 =>
        unfold decodeTermF at h
        by_cases h100 : tag = 100
        · rw [if_pos h100] at h
          split_ifs at h
          all_goals
            cases h <;>
              (refine ⟨?_, List.drop_suffix _ _⟩
               simp only [List.length_drop, List.length_cons]
               omega)
        rw [if_neg h100] at h
        by_cases h106 : tag = 106
        · rw [if_pos h106] at h
          cases h
          exact ⟨by simp only [List.length_cons]; omega, List.suffix_cons _ _⟩
        rw [if_neg h106] at h
        by_cases h107 : tag = 107
        · rw [if_pos h107] at h
          split_ifs at h
          all_goals
            cases h <;>
              (refine ⟨?_, List.drop_suffix _ _⟩
               simp only [List.length_drop, List.length_cons]
               omega)
        rw [if_neg h107] at h
        by_cases h104 : tag = 104
        · rw [if_pos h104] at h
          match rest1 with
          | [] => exact absurd h (by simp)
          | arity :: tail =>
              simp only [Bind.bind, Except.bind] at h
              rcases hs : decodeSeq (decodeTermF loads fuel) arity tail with e | ⟨lst, rest⟩ <;>
                simp only [hs] at h
              · exact absurd h (by simp)
              obtain ⟨hl, hsfx⟩ := decodeSeq_consume _ ih arity tail lst rest hs
              have hr := finishTuple_ok_rest loads lst rest _ _ h
              subst hr
              refine ⟨by simp only [List.length_cons]; omega,
                (hsfx.trans (List.suffix_cons _ _)).trans (List.suffix_cons _ _)⟩
        rw [if_neg h104] at h
        by_cases h105 : tag = 105
        · rw [if_pos h105] at h
          match rest1 with
          | [] => exact absurd h (by simp)
          | [_] => exact absurd h (by simp)
          | [_, _] => exact absurd h (by simp)
          | [_, _, _] => exact absurd h (by simp)
          | a :: b :: c :: d :: tail =>
              simp only [Bind.bind, Except.bind] at h
              rcases hs : decodeSeq (decodeTermF loads fuel) (beVal [a, b, c, d]) tail with
                e | ⟨lst, rest⟩ <;> simp only [hs] at h
              · exact absurd h (by simp)
              obtain ⟨hl, hsfx⟩ := decodeSeq_consume _ ih _ tail lst rest hs
              have hr := finishTuple_ok_rest loads lst rest _ _ h
              subst hr
              refine ⟨by simp only [List.length_cons]; omega, ?_⟩
              exact ((((hsfx.trans (List.suffix_cons _ _)).trans
                (List.suffix_cons _ _)).trans (List.suffix_cons _ _)).trans
                (List.suffix_cons _ _)).trans (List.suffix_cons _ _)
        rw [if_neg h105] at h
        by_cases h108 : tag = 108
        · rw [if_pos h108] at h
          match rest1 with
          | [] => exact absurd h (by simp)
          | [_] => exact absurd h (by simp)
          | [_, _] => exact absurd h (by simp)
          | [_, _, _] => exact absurd h (by simp)
          | a :: b :: c :: d :: tail =>
              simp only [Bind.bind, Except.bind] at h
              rcases hs : decodeSeq (decodeTermF loads fuel) (beVal [a, b, c, d]) tail with
                e | ⟨lst, rest⟩ <;> simp only [hs] at h
              · exact absurd h (by simp)
              obtain ⟨hl, hsfx⟩ := decodeSeq_consume _ ih _ tail lst rest hs
              have htail : ∀ x : List Nat, x <:+ tail → x <:+ tag :: a :: b :: c :: d :: tail :=
                fun x hx => ((((hx.trans (List.suffix_cons _ _)).trans
                  (List.suffix_cons _ _)).trans (List.suffix_cons _ _)).trans
                  (List.suffix_cons _ _)).trans (List.suffix_cons _ _)
              split at h
              · exact absurd h (by simp)
              · cases h
                rename_i r2
                refine ⟨?_, htail _ ((List.suffix_cons _ _).trans hsfx)⟩
                have hlen := hl
                simp only [List.length_cons] at hlen ⊢
                omega
              · rcases hd : decodeTermF loads fuel rest with e2 | ⟨tl2, r3⟩ <;>
                  simp only [hd] at h
                · exact absurd h (by simp)
                obtain ⟨hl3, hsfx3⟩ := ih rest tl2 r3 hd
                split_ifs at h
                cases h
                refine ⟨?_, htail _ (hsfx3.trans hsfx)⟩
                simp only [List.length_cons]
                omega
        rw [if_neg h108] at h
        by_cases h97 : tag = 97
        · rw [if_pos h97] at h
          match rest1 with
          | [] => exact absurd h (by simp)
          | v :: rest =>
              cases h
              exact ⟨by simp only [List.length_cons]; omega,
                (List.suffix_cons _ _).trans (List.suffix_cons _ _)⟩
        rw [if_neg h97] at h
        by_cases h98 : tag = 98
        · rw [if_pos h98] at h
          match rest1 with
          | [] => exact absurd h (by simp)
          | [_] => exact absurd h (by simp)
          | [_, _] => exact absurd h (by simp)
          | [_, _, _] => exact absurd h (by simp)
          | a :: b :: c :: d :: rest =>
              cases h
              refine ⟨by simp only [List.length_cons]; omega, ?_⟩
              exact (((((List.suffix_cons _ _).trans (List.suffix_cons _ _)).trans
                (List.suffix_cons _ _)).trans (List.suffix_cons _ _)).trans
                (List.suffix_cons _ _))
        rw [if_neg h98] at h
        by_cases h109 : tag = 109
        · rw [if_pos h109] at h
          split_ifs at h
          all_goals
            cases h <;>
              (refine ⟨?_, List.drop_suffix _ _⟩
               simp only [List.length_drop, List.length_cons]
               omega)
        rw [if_neg h109] at h
        by_cases h70 : tag = 70
        · rw [if_pos h70] at h
          match rest1 with
          | [] => exact absurd h (by simp)
          | [_] => exact absurd h (by simp)
          | [_, _] => exact absurd h (by simp)
          | [_, _, _] => exact absurd h (by simp)
          | [_, _, _, _] => exact absurd h (by simp)
          | [_, _, _, _, _] => exact absurd h (by simp)
          | [_, _, _, _, _, _] => exact absurd h (by simp)
          | [_, _, _, _, _, _, _] => exact absurd h (by simp)
          | a :: b :: c :: d :: e :: f :: g :: k :: rest =>
              cases h
              refine ⟨by simp only [List.length_cons]; omega, ?_⟩
              exact (((((((((List.suffix_cons _ _).trans (List.suffix_cons _ _)).trans
                (List.suffix_cons _ _)).trans (List.suffix_cons _ _)).trans
                (List.suffix_cons _ _)).trans (List.suffix_cons _ _)).trans
                (List.suffix_cons _ _)).trans (List.suffix_cons _ _)).trans
                (List.suffix_cons _ _))
        rw [if_neg h70] at h
        by_cases h110 : tag = 110
        · rw [if_pos h110] at h
          split at h
          · split_ifs at h
            all_goals
              cases h <;>
                (refine ⟨?_, ((List.drop_suffix _ _).trans
                   (List.suffix_cons _ _)).trans ((List.suffix_cons _ _).trans
                   (List.suffix_cons _ _))⟩
                 simp only [List.length_drop, List.length_cons]
                 omega)
          · exact absurd h (by simp)
        rw [if_neg h110] at h
        by_cases h111 : tag = 111
        · rw [if_pos h111] at h
          split at h
          · split_ifs at h
            all_goals
              cases h <;>
                (refine ⟨?_, (List.drop_suffix _ _).trans
                   ((((((List.suffix_cons _ _).trans (List.suffix_cons _ _)).trans
                   (List.suffix_cons _ _)).trans (List.suffix_cons _ _)).trans
                   (List.suffix_cons _ _)).trans (List.suffix_cons _ _))⟩
                 simp only [List.length_drop, List.length_cons]
                 omega)
          · exact absurd h (by simp)
        rw [if_neg h111] at h
        exact absurd h (by simp)

end ErlTerms

namespace ErlTerms

/-- `finishTuple` never reports fuel exhaustion. -/
theorem finishTuple_no_fuelOut (loads : List Nat → Term) (lst : List Term)
    (rest : List Nat) :
    finishTuple loads lst rest ≠ Except.error DErr.fuelOut := by
  unfold finishTuple
  split
  · split
    · unfold decodeOpaque
      split
      · split <;> simp [Bind.bind, Except.bind]
      · split <;> simp [Bind.bind, Except.bind]
    · simp
  · simp

/-- The element loop never reports fuel exhaustion when its element
decoder does not on short-enough buffers. -/
theorem decodeSeq_no_fuelOut (N : Nat)
    (dec : List Nat → Except DErr (Term × List Nat))
    (hdec : ∀ b, b.length < N → dec b ≠ Except.error DErr.fuelOut)
    (hcons : ∀ b t r, dec b = Except.ok (t, r) → r.length < b.length ∧ r <:+ b) :
    ∀ n buf, buf.length < N → decodeSeq dec n buf ≠ Except.error DErr.fuelOut := by
  intro n
  induction n with
  | zero =>
      intro buf hlen h
      simp [decodeSeq] at h
  | succ n ih =>
      intro buf hlen h
      simp only [decodeSeq, Bind.bind, Except.bind] at h
      rcases h1 : dec buf with e | ⟨t1, rest1⟩ <;> simp only [h1] at h
      · have he : e = DErr.fuelOut := by simpa using h
        rw [he] at h1
        exact hdec buf hlen h1
      · rcases h2 : decodeSeq dec n rest1 with e | ⟨ts2, rest2⟩ <;>
          simp only [h2] at h
        · obtain ⟨hl, -⟩ := hcons buf t1 rest1 h1
          exact ih rest1 (by omega) (h2.trans h)
        · simp at h

end ErlTerms

namespace ErlTerms

/-- With fuel exceeding the buffer length the decoder never exhausts
it: every nesting level consumes at least one byte before recursing. -/
theorem decodeTermF_no_fuelOut (loads : List Nat → Term) :
    ∀ fuel buf, buf.length < fuel →
      decodeTermF loads fuel buf ≠ Except.error DErr.fuelOut := by
  intro fuel
  induction fuel with
  | zero =>
      intro buf hlen
      omega
  | succ fuel ih =>
      intro buf hlen h
      match buf, hlen with
      | [], _ =>
          unfold decodeTermF at h
          simp at h
      | tag :: rest1, hlen =>
        have hr1 : rest1.length < fuel + 1 := by
          simp only [List.length_cons] at hlen
          omega
        unfold decodeTermF at h
        by_cases h100 : tag = 100
        · rw [if_pos h100] at h
          split_ifs at h <;> simp at h
        rw [if_neg h100] at h
        by_cases h106 : tag = 106
        · rw [if_pos h106] at h
          simp at h
        rw [if_neg h106] at h
        by_cases h107 : tag = 107
        · rw [if_pos h107] at h
          split_ifs at h <;> simp at h
        rw [if_neg h107] at h
        by_cases h104 : tag = 104
        · rw [if_pos h104] at h
          match rest1, hr1 with
          | [], _ => simp at h
          | arity :: tail, hr1 =>
              simp only [Bind.bind, Except.bind] at h
              rcases hs : decodeSeq (decodeTermF loads fuel) arity tail with e | ⟨lst, rest⟩ <;>
                simp only [hs] at h
              · have he : e = DErr.fuelOut := by simpa using h
                rw [he] at hs
                refine decodeSeq_no_fuelOut fuel (decodeTermF loads fuel)
                  (fun b hb => ih b hb)
                  (fun b t r hb => decodeTermF_consume loads fuel b t r hb)
                  arity tail ?_ hs
                simp only [List.length_cons] at hlen
                omega
              · exact finishTuple_no_fuelOut loads lst rest h
        rw [if_neg h104] at h
        by_cases h105 : tag = 105
        · rw [if_pos h105] at h
          match rest1, hr1 with
          | [], _ => simp at h
          | [_], _ => simp at h
          | [_, _], _ => simp at h
          | [_, _, _], _ => simp at h
          | a :: b :: c :: d :: tail, hr1 =>
              simp only [Bind.bind, Except.bind] at h
              rcases hs : decodeSeq (decodeTermF loads fuel) (beVal [a, b, c, d]) tail with
                e | ⟨lst, rest⟩ <;> simp only [hs] at h
              · have he : e = DErr.fuelOut := by simpa using h
                rw [he] at hs
                refine decodeSeq_no_fuelOut fuel (decodeTermF loads fuel)
                  (fun b2 hb => ih b2 hb)
                  (fun b2 t r hb => decodeTermF_consume loads fuel b2 t r hb)
                  (beVal [a, b, c, d]) tail ?_ hs
                simp only [List.length_cons] at hlen
                omega
              · exact finishTuple_no_fuelOut loads lst rest h
        rw [if_neg h105] at h
        by_cases h108 : tag = 108
        · rw [if_pos h108] at h
          match rest1, hr1 with
          | [], _ => simp at h
          | [_], _ => simp at h
          | [_, _], _ => simp at h
          | [_, _, _], _ => simp at h
          | a :: b :: c :: d :: tail, hr1 =>
              simp only [Bind.bind, Except.bind] at h
              rcases hs : decodeSeq (decodeTermF loads fuel) (beVal [a, b, c, d]) tail with
                e | ⟨lst, rest⟩ <;> simp only [hs] at h
              · have he : e = DErr.fuelOut := by simpa using h
                rw [he] at hs
                refine decodeSeq_no_fuelOut fuel (decodeTermF loads fuel)
                  (fun b2 hb => ih b2 hb)
                  (fun b2 t r hb => decodeTermF_consume loads fuel b2 t r hb)
                  (beVal [a, b, c, d]) tail ?_ hs
                simp only [List.length_cons] at hlen
                omega
              · obtain ⟨hl, -⟩ := decodeSeq_consume _
                  (fun b2 t r hb => decodeTermF_consume loads fuel b2 t r hb)
                  (beVal [a, b, c, d]) tail lst rest hs
                split at h
                · simp at h
                · simp at h
                · rcases hd : decodeTermF loads fuel rest with e2 | ⟨tl2, r3⟩ <;>
                    simp only [hd] at h
                  · have he : e2 = DErr.fuelOut := by simpa using h
                    rw [he] at hd
                    refine ih rest ?_ hd
                    simp only [List.length_cons] at hlen
                    omega
                  · split_ifs at h <;> simp at h
        rw [if_neg h108] at h
        by_cases h97 : tag = 97
        · rw [if_pos h97] at h
          match rest1, hr1 with
          | [], _ => simp at h
          | v :: rest, _ => simp at h
        rw [if_neg h97] at h
        by_cases h98 : tag = 98
        · rw [if_pos h98] at h
          split at h <;> simp at h
        rw [if_neg h98] at h
        by_cases h109 : tag = 109
        · rw [if_pos h109] at h
          split_ifs at h <;> simp at h
        rw [if_neg h109] at h
        by_cases h70 : tag = 70
        · rw [if_pos h70] at h
          split at h <;> simp at h
        rw [if_neg h70] at h
        by_cases h110 : tag = 110
        · rw [if_pos h110] at h
          split at h
          · split_ifs at h <;> simp at h
          · simp at h
        rw [if_neg h110] at h
        by_cases h111 : tag = 111
        · rw [if_pos h111] at h
          split at h
          · split_ifs at h <;> simp at h
          · simp at h
        rw [if_neg h111] at h
        simp at h

/-- `decode_term` never reports fuel exhaustion: its fuel budget of
`length + 1` always suffices. -/
theorem decode_term_no_fuelOut (loads : List Nat → Term) (buf : List Nat) :
    decode_term loads buf ≠ Except.error DErr.fuelOut :=
  decodeTermF_no_fuelOut loads (buf.length + 1) buf (by omega)

end ErlTerms

namespace ErlTerms


/-- Taking `midlen + k` keeps a `k`-byte header plus the middle part. -/
theorem take_hdr (k : Nat) (p mid rest : List Nat) (hp : p.length = k) :
    (p ++ (mid ++ rest)).take (mid.length + k) = p ++ mid := by
  rw [show p ++ (mid ++ rest) = (p ++ mid) ++ rest by simp]
  exact List.take_left' (by simp [hp]; omega)

/-- Dropping `midlen + k` removes a `k`-byte header plus the middle. -/
theorem drop_hdr (k : Nat) (p mid rest : List Nat) (hp : p.length = k) :
    (p ++ (mid ++ rest)).drop (mid.length + k) = rest := by
  rw [show p ++ (mid ++ rest) = (p ++ mid) ++ rest by simp]
  exact List.drop_left' (by simp [hp]; omega)

set_option maxRecDepth 8192 in
theorem dec_small_int (loads : List Nat → Term) (fuel v : Nat) (rest : List Nat) :
    decodeTermF loads (fuel + 1) (97 :: v :: rest) = Except.ok (Term.int v, rest) := by
  simp only [decodeTermF]
  norm_num

set_option maxRecDepth 8192 in
theorem dec_int4 (loads : List Nat → Term) (fuel a b c d : Nat) (rest : List Nat) :
    decodeTermF loads (fuel + 1) (98 :: a :: b :: c :: d :: rest) =
      Except.ok (Term.int (signedOfBE4 [a, b, c, d]), rest) := by
  simp only [decodeTermF]
  norm_num

set_option maxRecDepth 8192 in
theorem dec_nil (loads : List Nat → Term) (fuel : Nat) (rest : List Nat) :
    decodeTermF loads (fuel + 1) (106 :: rest) = Except.ok (Term.list [], rest) := by
  simp only [decodeTermF]
  norm_num

set_option maxRecDepth 8192 in
theorem dec_float (loads : List Nat → Term) (fuel a b c d e f g k : Nat)
    (rest : List Nat) :
    decodeTermF loads (fuel + 1) (70 :: a :: b :: c :: d :: e :: f :: g :: k :: rest) =
      Except.ok (Term.float (beVal [a, b, c, d, e, f, g, k]), rest) := by
  simp only [decodeTermF]
  norm_num

set_option maxRecDepth 8192 in
theorem dec_atom (loads : List Nat → Term) (fuel : Nat) (name rest : List Nat)
    (hn : name.length ≤ 65535) :
    decodeTermF loads (fuel + 1) (100 :: int2BE name.length ++ name ++ rest) =
      (if name = strBytes "true" then Except.ok (Term.bool true, rest)
       else if name = strBytes "false" then Except.ok (Term.bool false, rest)
       else if name = strBytes "undefined" then Except.ok (Term.none, rest)
       else if name.length ≤ 255 then Except.ok (Term.atom name, rest)
       else Except.error DErr.invalid) := by
  simp only [decodeTermF, List.append_eq, List.append_assoc]
  rw [if_pos trivial]
  rw [show List.take 2 (int2BE name.length ++ (name ++ rest)) = int2BE name.length
    from List.take_left' (by simp [int2BE])]
  rw [beVal_int2BE name.length hn]
  rw [if_neg (by simp [int2BE] <;> omega)]
  rw [if_neg (by simp [int2BE] <;> omega)]
  rw [show ((100 : Nat) :: (int2BE name.length ++ (name ++ rest)))
    = (100 :: int2BE name.length) ++ (name ++ rest) from rfl]
  rw [take_hdr 3 (100 :: int2BE name.length) name rest (by simp [int2BE])]
  rw [show List.drop 3 ((100 :: int2BE name.length) ++ name) = name
    from List.drop_left' (by simp [int2BE])]
  rw [drop_hdr 3 (100 :: int2BE name.length) name rest (by simp [int2BE])]



set_option maxRecDepth 8192 in
theorem dec_strlist (loads : List Nat → Term) (fuel : Nat) (bs rest : List Nat)
    (hb : bs.length ≤ 65535) :
    decodeTermF loads (fuel + 1) (107 :: int2BE bs.length ++ bs ++ rest) =
      Except.ok (Term.list (bs.map (fun b => Term.int (Int.ofNat b))), rest) := by
  simp only [decodeTermF, List.append_eq, List.append_assoc, if_true, if_false]
  rw [if_neg (show ¬((107 : Nat) = 100) by decide)]
  rw [if_neg (show ¬((107 : Nat) = 106) by decide)]
  rw [show List.take 2 (int2BE bs.length ++ (bs ++ rest)) = int2BE bs.length
    from List.take_left' (by simp [int2BE])]
  rw [beVal_int2BE bs.length hb]
  rw [if_neg (by simp [int2BE] <;> omega)]
  rw [if_neg (by simp [int2BE] <;> omega)]
  rw [show ((107 : Nat) :: (int2BE bs.length ++ (bs ++ rest)))
    = (107 :: int2BE bs.length) ++ (bs ++ rest) from rfl]
  rw [take_hdr 3 (107 :: int2BE bs.length) bs rest (by simp [int2BE])]
  rw [show List.drop 3 ((107 :: int2BE bs.length) ++ bs) = bs
    from List.drop_left' (by simp [int2BE])]
  rw [drop_hdr 3 (107 :: int2BE bs.length) bs rest (by simp [int2BE])]

set_option maxRecDepth 8192 in
theorem dec_binary (loads : List Nat → Term) (fuel : Nat) (bs rest : List Nat)
    (hb : bs.length ≤ 4294967295) :
    decodeTermF loads (fuel + 1) (109 :: int4BE bs.length ++ bs ++ rest) =
      Except.ok (Term.bytes bs, rest) := by
  simp only [decodeTermF]
  norm_num [List.append_eq, List.append_assoc]
  rw [show List.take 4 (int4BE bs.length ++ (bs ++ rest)) = int4BE bs.length
    from List.take_left' (by simp [int4BE])]
  rw [beVal_int4BE bs.length hb]
  rw [if_neg (by simp [int4BE] <;> omega), if_neg (by simp [int4BE] <;> omega)]
  rw [take_hdr 4 (int4BE bs.length) bs rest (by simp [int4BE])]
  rw [show List.drop 4 (int4BE bs.length ++ bs) = bs
    from List.drop_left' (by simp [int4BE])]
  rw [drop_hdr 4 (int4BE bs.length) bs rest (by simp [int4BE])]

set_option maxRecDepth 8192 in
theorem dec_big_small (loads : List Nat → Term) (fuel sign : Nat)
    (digs rest : List Nat) :
    decodeTermF loads (fuel + 1) (110 :: digs.length :: sign :: (digs ++ rest)) =
      Except.ok (Term.int (if digs.length ≠ 0 ∧ sign ≠ 0 then
        -(bigVal (digs : List Nat) : Int) else (bigVal digs : Int)), rest) := by
  simp only [decodeTermF]
  norm_num [List.append_eq, List.append_assoc]

set_option maxRecDepth 8192 in
theorem dec_big_large (loads : List Nat → Term) (fuel a b c d sign : Nat)
    (digs rest : List Nat) (hlen : beVal [a, b, c, d] = digs.length) :
    decodeTermF loads (fuel + 1) (111 :: a :: b :: c :: d :: sign :: (digs ++ rest)) =
      Except.ok (Term.int (if digs.length ≠ 0 ∧ sign ≠ 0 then
        -(bigVal (digs : List Nat) : Int) else (bigVal digs : Int)), rest) := by
  simp only [decodeTermF]
  norm_num [List.append_eq, List.append_assoc]
  rw [hlen, if_neg (by simp), List.take_left, List.drop_left]
  simp [List.length_eq_zero]

set_option maxRecDepth 8192 in
theorem dec_tuple_small (loads : List Nat → Term) (fuel arity : Nat)
    (tail : List Nat) (lst : List Term) (rest : List Nat)
    (hs : decodeSeq (decodeTermF loads fuel) arity tail = Except.ok (lst, rest)) :
    decodeTermF loads (fuel + 1) (104 :: arity :: tail) = finishTuple loads lst rest := by
  simp only [decodeTermF]
  norm_num [hs, Bind.bind, Except.bind]

set_option maxRecDepth 8192 in
theorem dec_tuple_large (loads : List Nat → Term) (fuel a b c d : Nat)
    (tail : List Nat) (lst : List Term) (rest : List Nat)
    (hs : decodeSeq (decodeTermF loads fuel) (beVal [a, b, c, d]) tail
      = Except.ok (lst, rest)) :
    decodeTermF loads (fuel + 1) (105 :: a :: b :: c :: d :: tail)
      = finishTuple loads lst rest := by
  simp only [decodeTermF]
  norm_num [hs, Bind.bind, Except.bind]

set_option maxRecDepth 8192 in
theorem dec_list_proper (loads : List Nat → Term) (fuel a b c d : Nat)
    (tail : List Nat) (lst : List Term) (r2 : List Nat)
    (hs : decodeSeq (decodeTermF loads fuel) (beVal [a, b, c, d]) tail
      = Except.ok (lst, 106 :: r2)) :
    decodeTermF loads (fuel + 1) (108 :: a :: b :: c :: d :: tail)
      = Except.ok (Term.list lst, r2) := by
  simp only [decodeTermF]
  norm_num [hs, Bind.bind, Except.bind]

set_option maxRecDepth 8192 in
theorem dec_list_improper (loads : List Nat → Term) (fuel a b c d h : Nat)
    (tail : List Nat) (lst : List Term) (r2 : List Nat)
    (hs : decodeSeq (decodeTermF loads fuel) (beVal [a, b, c, d]) tail
      = Except.ok (lst, h :: r2))
    (hne : h ≠ 106) (tl : Term) (r3 : List Nat)
    (hd : decodeTermF loads fuel (h :: r2) = Except.ok (tl, r3))
    (hlst : lst ≠ []) (htl : isPyList tl = false) :
    decodeTermF loads (fuel + 1) (108 :: a :: b :: c :: d :: tail)
      = Except.ok (Term.improper lst tl, r3) := by
  simp only [decodeTermF]
  norm_num [hs, Bind.bind, Except.bind]
  split
  · rename_i rest2 heq
    simp at heq
  · rename_i rest2 r2b heq
    simp only [List.cons.injEq] at heq
    exact absurd heq.1 hne
  · rw [hd]
    simp [hlst, htl]


end ErlTerms

namespace ErlTerms


/-- Every term has positive size. -/
theorem tsize_pos (t : Term) : 0 < tsize t := by
  cases t <;> simp [tsize]

/-- A member's size is bounded by the list size. -/
theorem tsize_le_of_mem {e : Term} : ∀ {es : List Term}, e ∈ es → tsize e ≤ tsizeList es := by
  intro es
  induction es with
  | nil => intro h; simp at h
  | cons t ts ih =>
      intro h
      rcases List.mem_cons.mp h with h | h
      · subst h
        simp only [tsizeList]
        omega
      · have := ih h
        simp only [tsizeList]
        omega

/-- The compact-string attempt returns one byte per element. -/
theorem compactBytes_length : ∀ es bs, compactBytes es = Option.some bs →
    bs.length = es.length := by
  intro es
  induction es with
  | nil =>
      intro bs h
      simp only [compactBytes, Option.some.injEq] at h
      subst h
      rfl
  | cons t ts ih =>
      intro bs h
      match t with
      | .int n =>
          simp only [compactBytes] at h
          split_ifs at h
          rcases hcb : compactBytes ts with _ | bs2 <;> rw [hcb] at h
          · simp at h
          · simp at h
            rw [← h]
            simp [ih bs2 hcb]
      | .bool b =>
          simp only [compactBytes] at h
          rcases hcb : compactBytes ts with _ | bs2 <;> rw [hcb] at h
          · simp at h
          · simp at h
            rw [← h]
            simp [ih bs2 hcb]
      | .float f => simp [compactBytes] at h
      | .atom a => simp [compactBytes] at h
      | .bytes a => simp [compactBytes] at h
      | .charlist a => simp [compactBytes] at h
      | .list a => simp [compactBytes] at h
      | .improper a b => simp [compactBytes] at h
      | .tuple a => simp [compactBytes] at h
      | .none => simp [compactBytes] at h
      | .opaqueObject a b => simp [compactBytes] at h

/-- Without booleans, the compact-string bytes are exactly the integer
elements, and decoding them as small integers rebuilds the list. -/
theorem compactBytes_no_bool : ∀ es bs, compactBytes es = Option.some bs →
    es.any isBool = false → bs.map (fun b => Term.int (Int.ofNat b)) = es := by
  intro es
  induction es with
  | nil =>
      intro bs h _
      simp only [compactBytes, Option.some.injEq] at h
      subst h
      rfl
  | cons t ts ih =>
      intro bs h hb
      simp only [List.any_cons, Bool.or_eq_false_iff] at hb
      match t, hb with
      | .int n, hb =>
          simp only [compactBytes] at h
          split_ifs at h with hr
          rcases hcb : compactBytes ts with _ | bs2 <;> rw [hcb] at h
          · exact absurd h (by simp)
          · simp only [Option.map_some', Option.some.injEq] at h
            subst h
            rw [List.map_cons]
            refine congrArg₂ List.cons ?_ (ih bs2 hcb hb.2)
            congr 1
            exact Int.toNat_of_nonneg hr.1
      | .bool b, hb => simp [isBool] at hb
      | .float f, _ => simp [compactBytes] at h
      | .atom a, _ => simp [compactBytes] at h
      | .bytes a, _ => simp [compactBytes] at h
      | .charlist a, _ => simp [compactBytes] at h
      | .list a, _ => simp [compactBytes] at h
      | .improper a b, _ => simp [compactBytes] at h
      | .tuple a, _ => simp [compactBytes] at h
      | .none, _ => simp [compactBytes] at h
      | .opaqueObject a b, _ => simp [compactBytes] at h

/-- Tuples without the reserved marker head pass through `finishTuple`
as plain tuples. -/
theorem finishTuple_plain (loads : List Nat → Term) (lst : List Term)
    (rest : List Nat)
    (h : ¬(lst.length = 3 ∧ pyStrEq (lst.headD Term.none) markerBytes = true)) :
    finishTuple loads lst rest = Except.ok (Term.tuple lst, rest) := by
  unfold finishTuple
  split
  · rename_i a b c
    rw [if_neg]
    intro hmk
    exact h ⟨by simp, by simpa using hmk⟩
  · rfl


end ErlTerms

namespace ErlTerms


/-- The encoding of a canonical non-list term never starts with the
nil tag `j` (106), so an improper tail is never mistaken for a proper
terminator. -/
theorem enc_head_ne_nil (t : Term) (hc : canonB t = true) (hnl : isPyList t = false)
    (E : List Nat) (hE : encode_term t = Option.some E) :
    ∃ hd tl2, E = hd :: tl2 ∧ hd ≠ 106 := by
  match t with
  | .int n =>
      simp only [encode_term, encInt] at hE
      split_ifs at hE <;>
        (simp only [Option.some.injEq] at hE
         subst hE)
      all_goals
        first
          | exact ⟨97, _, rfl, by decide⟩
          | exact ⟨98, _, rfl, by decide⟩
          | exact ⟨110, _, rfl, by decide⟩
          | exact ⟨111, _, rfl, by decide⟩
  | .float bits =>
      simp only [encode_term, Option.some.injEq] at hE
      subst hE
      exact ⟨70, _, rfl, by decide⟩
  | .atom name =>
      simp only [encode_term, encAtom] at hE
      split_ifs at hE
      simp only [Option.some.injEq] at hE
      subst hE
      exact ⟨100, _, rfl, by decide⟩
  | .bytes data =>
      simp only [encode_term, encBytesE] at hE
      split_ifs at hE
      simp only [Option.some.injEq] at hE
      subst hE
      exact ⟨109, _, rfl, by decide⟩
  | .charlist cs => simp [canonB] at hc
  | .list es => simp [isPyList] at hnl
  | .improper es tl => simp [isPyList] at hnl
  | .tuple es =>
      simp only [encode_term] at hE
      split_ifs at hE
      · rcases hs : encodeSeq es with _ | body <;> rw [hs] at hE
        · simp [Bind.bind] at hE
        · simp only [Bind.bind, Option.some_bind, Option.some.injEq] at hE
          subst hE
          exact ⟨104, _, rfl, by decide⟩
      · rcases hs : encodeSeq es with _ | body <;> rw [hs] at hE
        · simp [Bind.bind] at hE
        · simp only [Bind.bind, Option.some_bind, Option.some.injEq] at hE
          subst hE
          exact ⟨105, _, rfl, by decide⟩
  | .bool b =>
      rcases b
      · rw [show encode_term (Term.bool false)
          = Option.some (100 :: int2BE 5 ++ strBytes "false") from rfl] at hE
        simp only [Option.some.injEq] at hE
        subst hE
        exact ⟨100, _, rfl, by decide⟩
      · rw [show encode_term (Term.bool true)
          = Option.some (100 :: int2BE 4 ++ strBytes "true") from rfl] at hE
        simp only [Option.some.injEq] at hE
        subst hE
        exact ⟨100, _, rfl, by decide⟩
  | .none =>
      simp only [encode_term, Option.some.injEq] at hE
      subst hE
      exact ⟨100, _, rfl, by decide⟩
  | .opaqueObject data lang =>
      have hlang : ¬(lang = erlangBytes) := by
        simp only [canonB, Bool.and_eq_true, bne_iff_ne, ne_eq] at hc
        exact hc.2
      simp only [encode_term] at hE
      rw [if_neg hlang] at hE
      rcases h1 : encAtom markerBytes with _ | m <;> rw [h1] at hE
      · simp at hE
      rcases h2 : encAtom lang with _ | l <;> rw [h2] at hE
      · simp [Bind.bind] at hE
      rcases h3 : encBytesE data with _ | d <;> rw [h3] at hE
      · simp [Bind.bind] at hE
      simp only [Bind.bind, Option.some_bind, Option.some.injEq] at hE
      subst hE
      exact ⟨104, _, rfl, by decide⟩


end ErlTerms

namespace ErlTerms


/-- Decoding the concatenated encodings of a list of elements, given
that each element decodes exactly, rebuilds the element list and
leaves the trailer untouched. The element decoder runs at the same
fuel for every element. -/
theorem decodeSeq_exact (loads : List Nat → Term) :
    ∀ es : List Term,
      (∀ e ∈ es, canonB e = true → ∀ E2, encode_term e = Option.some E2 →
        ∀ r2 fuel2, E2.length + r2.length < fuel2 →
          decodeTermF loads fuel2 (E2 ++ r2) = Except.ok (e, r2)) →
      canonList es = true →
      ∀ body, encodeSeq es = Option.some body →
      ∀ rest fuel, body.length + rest.length < fuel →
        decodeSeq (decodeTermF loads fuel) es.length (body ++ rest)
          = Except.ok (es, rest) := by
  intro es
  induction es with
  | nil =>
      intro _ _ body hbody rest fuel _
      simp only [encodeSeq, Option.some.injEq] at hbody
      subst hbody
      simp [decodeSeq]
  | cons e ts ih =>
      intro hIH hcs body hbody rest fuel hfuel
      simp only [canonList, Bool.and_eq_true] at hcs
      simp only [encodeSeq] at hbody
      rcases h1 : encode_term e with _ | b1 <;> rw [h1] at hbody
      · simp [Bind.bind] at hbody
      rcases h2 : encodeSeq ts with _ | bs <;> rw [h2] at hbody
      · simp [Bind.bind] at hbody
      simp only [Bind.bind, Option.some_bind, Option.some.injEq] at hbody
      subst hbody
      have hb1len : b1.length + (bs ++ rest).length < fuel := by
        simp only [List.length_append] at hfuel ⊢
        omega
      have hstep : decodeTermF loads fuel (b1 ++ (bs ++ rest)) = Except.ok (e, bs ++ rest) :=
        hIH e (List.mem_cons_self e ts) hcs.1 b1 h1 (bs ++ rest) fuel hb1len
      have hrest : decodeSeq (decodeTermF loads fuel) ts.length (bs ++ rest)
          = Except.ok (ts, rest) := by
        refine ih (fun e2 he2 => hIH e2 (List.mem_cons_of_mem e he2)) hcs.2 bs h2 rest fuel ?_
        simp only [List.length_append] at hfuel
        omega
      rw [List.append_assoc]
      simp only [List.length_cons, decodeSeq, Bind.bind, Except.bind, hstep, hrest]


end ErlTerms
namespace ErlTerms

/-- Shape of the 4-byte pack: always a 4-element list. -/
theorem int4BE_shape (n : Nat) : ∃ a b c d, int4BE n = [a, b, c, d] :=
  ⟨_, _, _, _, rfl⟩

/-- Decoding the general (`l`-tagged) encoding of a proper list. -/
theorem dec_enc_list_general (loads : List Nat → Term) (es : List Term)
    (hIH : ∀ e ∈ es, canonB e = true → ∀ E2, encode_term e = Option.some E2 →
      ∀ r2 fuel2, E2.length + r2.length < fuel2 →
        decodeTermF loads fuel2 (E2 ++ r2) = Except.ok (e, r2))
    (hcl : canonList es = true) (hlb : es.length ≤ 4294967295)
    (body : List Nat) (hb : encodeSeq es = Option.some body)
    (rest : List Nat) (f : Nat) (hfuel : body.length + rest.length + 6 ≤ f) :
    decodeTermF loads (f + 1) ((108 :: int4BE es.length ++ body ++ [106]) ++ rest)
      = Except.ok (Term.list es, rest) := by
  obtain ⟨a, b, c, d, hsh⟩ := int4BE_shape es.length
  have hbe : beVal [a, b, c, d] = es.length := by
    rw [← hsh]
    exact beVal_int4BE _ hlb
  have hbuf : (108 :: int4BE es.length ++ body ++ [106]) ++ rest
      = 108 :: a :: b :: c :: d :: (body ++ (106 :: rest)) := by
    rw [hsh]
    simp
  rw [hbuf]
  have hs : decodeSeq (decodeTermF loads f) (beVal [a, b, c, d])
      (body ++ (106 :: rest)) = Except.ok (es, 106 :: rest) := by
    rw [hbe]
    exact decodeSeq_exact loads es hIH hcl body hb (106 :: rest) f
      (by simp only [List.length_cons]; omega)
  exact dec_list_proper loads f a b c d _ es rest hs

end ErlTerms
namespace ErlTerms

set_option maxRecDepth 8192 in
/-- Core round-trip: decoding the canonical encoding of a canonical
term, followed by any trailing bytes, returns the term and the
trailer, for any sufficient fuel. -/
theorem dec_enc_core (loads : List Nat → Term) :
    ∀ N t, tsize t ≤ N → canonB t = true → ∀ E, encode_term t = Option.some E →
      ∀ rest fuel, E.length + rest.length < fuel →
        decodeTermF loads fuel (E ++ rest) = Except.ok (t, rest) := by
  intro N
  induction N with
  | zero =>
      intro t ht
      have := tsize_pos t
      exact absurd ht (by omega)
  | succ N ihN =>
      intro t ht hc E hE rest fuel hfuel
      rcases fuel with _ | f
      · omega
      match t, ht with
      | .int n, _ =>
          simp only [encode_term, encInt] at hE
          split_ifs at hE with h1 h2 h3 h3b h4 h4b <;>
            (simp only [Option.some.injEq] at hE
             subst hE)
          · -- small integer
            rw [show ([97, n.toNat] ++ rest : List Nat) = 97 :: n.toNat :: rest from rfl]
            rw [dec_small_int]
            simp [Int.toNat_of_nonneg h1.1]
          · -- 4-byte signed
            obtain ⟨a, b, c, d, hsh⟩ : ∃ a b c d, signedInt4BE n = [a, b, c, d] :=
              ⟨_, _, _, _, rfl⟩
            rw [hsh]
            rw [show ((98 :: [a, b, c, d] : List Nat) ++ rest)
              = 98 :: a :: b :: c :: d :: rest from rfl]
            rw [dec_int4]
            rw [← hsh, signedOfBE4_signedInt4BE n (by omega) (by omega)]
          · -- small bignum, nonnegative
            rw [show ((110 :: (magDigits n.natAbs).length :: 0 :: magDigits n.natAbs)
              ++ rest : List Nat)
              = 110 :: (magDigits n.natAbs).length :: 0 :: (magDigits n.natAbs ++ rest)
              from rfl]
            rw [dec_big_small]
            rw [if_neg (by simp)]
            rw [bigVal_magDigits]
            have : (n.natAbs : Int) = n := Int.natAbs_of_nonneg h3b
            rw [this]
          · -- small bignum, negative
            rw [show ((110 :: (magDigits n.natAbs).length :: 1 :: magDigits n.natAbs)
              ++ rest : List Nat)
              = 110 :: (magDigits n.natAbs).length :: 1 :: (magDigits n.natAbs ++ rest)
              from rfl]
            rw [dec_big_small]
            rw [if_pos ⟨by
                have : magDigits n.natAbs ≠ [] := magDigits_ne_nil _ (by omega)
                simpa [List.length_eq_zero] using this,
              by omega⟩]
            rw [bigVal_magDigits]
            have : (n.natAbs : Int) = -n := by omega
            rw [this, neg_neg]
          · -- large bignum, nonnegative
            obtain ⟨a, b, c, d, hsh⟩ := int4BE_shape (magDigits n.natAbs).length
            rw [hsh]
            rw [show (((111 :: [a, b, c, d] : List Nat)
              ++ ((0 : Nat) :: magDigits n.natAbs)) ++ rest)
              = 111 :: a :: b :: c :: d :: 0 :: (magDigits n.natAbs ++ rest) from rfl]
            rw [dec_big_large loads f a b c d 0 (magDigits n.natAbs) rest
              (by rw [← hsh]; exact beVal_int4BE _ h4)]
            rw [if_neg (by simp)]
            rw [bigVal_magDigits]
            have : (n.natAbs : Int) = n := Int.natAbs_of_nonneg h4b
            rw [this]
          · -- large bignum, negative
            obtain ⟨a, b, c, d, hsh⟩ := int4BE_shape (magDigits n.natAbs).length
            rw [hsh]
            rw [show (((111 :: [a, b, c, d] : List Nat)
              ++ ((1 : Nat) :: magDigits n.natAbs)) ++ rest)
              = 111 :: a :: b :: c :: d :: 1 :: (magDigits n.natAbs ++ rest) from rfl]
            rw [dec_big_large loads f a b c d 1 (magDigits n.natAbs) rest
              (by rw [← hsh]; exact beVal_int4BE _ h4)]
            rw [if_pos ⟨by
                have : magDigits n.natAbs ≠ [] := magDigits_ne_nil _ (by omega)
                simpa [List.length_eq_zero] using this,
              by omega⟩]
            rw [bigVal_magDigits]
            have : (n.natAbs : Int) = -n := by omega
            rw [this, neg_neg]
      | .float bits, _ =>
          simp only [encode_term, Option.some.injEq] at hE
          subst hE
          have hb : bits < 18446744073709551616 := by
            simpa [canonB] using hc
          obtain ⟨a, b, c, d, e, f2, g, k, hsh⟩ :
              ∃ a b c d e f2 g k, int8BE bits = [a, b, c, d, e, f2, g, k] :=
            ⟨_, _, _, _, _, _, _, _, rfl⟩
          rw [hsh]
          rw [show ((70 :: [a, b, c, d, e, f2, g, k] : List Nat) ++ rest)
            = 70 :: a :: b :: c :: d :: e :: f2 :: g :: k :: rest from rfl]
          rw [dec_float]
          rw [← hsh, beVal_int8BE bits hb]
      | .charlist cs, _ => simp [canonB] at hc
      | .bytes data, _ =>
          have hlen : data.length ≤ 4294967295 := by
            simp only [canonB, Bool.and_eq_true, decide_eq_true_eq] at hc
            exact hc.1
          simp only [encode_term, encBytesE] at hE
          rw [if_pos hlen] at hE
          simp only [Option.some.injEq] at hE
          subst hE
          exact dec_binary loads f data rest hlen
      | .atom name, _ =>
          simp only [canonB, Bool.and_eq_true, Bool.not_eq_true',
            decide_eq_true_eq] at hc
          obtain ⟨⟨h255, -⟩, hres⟩ := hc
          simp only [reservedAtom, Bool.or_eq_false_iff, decide_eq_false_iff_not] at hres
          simp only [encode_term, encAtom] at hE
          rw [if_pos (by omega)] at hE
          simp only [Option.some.injEq] at hE
          subst hE
          rw [dec_atom loads f name rest (by omega)]
          rw [if_neg hres.1.1, if_neg hres.1.2, if_neg hres.2, if_pos h255]
      | .bool bv, _ =>
          rcases bv
          · rw [show encode_term (Term.bool false)
              = Option.some (100 :: int2BE 5 ++ strBytes "false") from rfl] at hE
            simp only [Option.some.injEq] at hE
            subst hE
            rw [show ((100 :: int2BE 5 ++ strBytes "false" : List Nat) ++ rest)
              = 100 :: int2BE (strBytes "false").length ++ strBytes "false" ++ rest
              from rfl]
            rw [dec_atom loads f (strBytes "false") rest (by decide)]
            rw [if_neg (by decide), if_pos rfl]
          · rw [show encode_term (Term.bool true)
              = Option.some (100 :: int2BE 4 ++ strBytes "true") from rfl] at hE
            simp only [Option.some.injEq] at hE
            subst hE
            rw [show ((100 :: int2BE 4 ++ strBytes "true" : List Nat) ++ rest)
              = 100 :: int2BE (strBytes "true").length ++ strBytes "true" ++ rest
              from rfl]
            rw [dec_atom loads f (strBytes "true") rest (by decide)]
            rw [if_pos rfl]
      | .none, _ =>
          simp only [encode_term, Option.some.injEq] at hE
          subst hE
          rw [show ((100 :: int2BE 9 ++ strBytes "undefined" : List Nat) ++ rest)
            = 100 :: int2BE (strBytes "undefined").length ++ strBytes "undefined" ++ rest
            from rfl]
          rw [dec_atom loads f (strBytes "undefined") rest (by decide)]
          rw [if_neg (by decide), if_neg (by decide), if_pos rfl]
      | .list es, ht =>
          simp only [canonB, Bool.and_eq_true, Bool.not_eq_true',
            decide_eq_true_eq] at hc
          obtain ⟨⟨hlb, hcl⟩, hnb⟩ := hc
          have hszN : tsizeList es ≤ N := by
            simp only [tsize] at ht
            omega
          have hIH : ∀ e ∈ es, canonB e = true → ∀ E2, encode_term e = Option.some E2 →
              ∀ r2 fuel2, E2.length + r2.length < fuel2 →
                decodeTermF loads fuel2 (E2 ++ r2) = Except.ok (e, r2) :=
            fun e he hce E2 hE2 r2 fuel2 hf2 =>
              ihN e (le_trans (tsize_le_of_mem he) hszN) hce E2 hE2 r2 fuel2 hf2
          simp only [encode_term] at hE
          split_ifs at hE with h0 h1
          · simp only [Option.some.injEq] at hE
            subst hE
            have hes : es = [] := List.length_eq_zero.mp h0
            subst hes
            rw [show (([106] : List Nat) ++ rest) = 106 :: rest from rfl, dec_nil]
          · rcases hcb : compactBytes es with _ | bs <;> rw [hcb] at hE
            · rcases hb : encodeSeq es with _ | body <;> rw [hb] at hE
              · simp [Bind.bind] at hE
              simp only [Bind.bind, Option.some_bind, Option.some.injEq] at hE
              subst hE
              refine dec_enc_list_general loads es hIH hcl hlb body hb rest f ?_
              have hEl : (108 :: int4BE es.length ++ body ++ [106] : List Nat).length
                  = body.length + 6 := by
                simp [int4BE]
              omega
            · simp only [Option.some.injEq] at hE
              subst hE
              have hbl := compactBytes_length es bs hcb
              have hnb2 : es.any isBool = false := by
                simpa [hcb, h1] using hnb
              have hmap := compactBytes_no_bool es bs hcb hnb2
              rw [← hbl]
              rw [dec_strlist loads f bs rest (by omega)]
              rw [hmap]
          · rcases hb : encodeSeq es with _ | body <;> rw [hb] at hE
            · simp [Bind.bind] at hE
            simp only [Bind.bind, Option.some_bind, Option.some.injEq] at hE
            subst hE
            refine dec_enc_list_general loads es hIH hcl hlb body hb rest f ?_
            have hEl : (108 :: int4BE es.length ++ body ++ [106] : List Nat).length
                = body.length + 6 := by
              simp [int4BE]
            omega
      | .improper es tl, ht =>
          simp only [canonB, Bool.and_eq_true, Bool.not_eq_true',
            decide_eq_true_eq] at hc
          obtain ⟨⟨⟨⟨hne, hlb⟩, hcl⟩, hct⟩, hnp⟩ := hc
          have hszN : tsizeList es ≤ N ∧ tsize tl ≤ N := by
            have h1 := tsize_pos tl
            simp only [tsize] at ht
            constructor <;> omega
          have hIH : ∀ e ∈ es, canonB e = true → ∀ E2, encode_term e = Option.some E2 →
              ∀ r2 fuel2, E2.length + r2.length < fuel2 →
                decodeTermF loads fuel2 (E2 ++ r2) = Except.ok (e, r2) :=
            fun e he hce E2 hE2 r2 fuel2 hf2 =>
              ihN e (le_trans (tsize_le_of_mem he) hszN.1) hce E2 hE2 r2 fuel2 hf2
          have hlst : es ≠ [] := by
            intro h
            rw [h] at hne
            simp at hne
          simp only [encode_term] at hE
          rw [if_pos hlb] at hE
          rcases hb : encodeSeq es with _ | body <;> rw [hb] at hE
          · simp [Bind.bind] at hE
          rcases htb : encode_term tl with _ | tb <;> rw [htb] at hE
          · simp [Bind.bind] at hE
          simp only [Bind.bind, Option.some_bind, Option.some.injEq] at hE
          subst hE
          obtain ⟨hd0, tb2, htb2, hdne⟩ := enc_head_ne_nil tl hct hnp tb htb
          obtain ⟨a, b, c, d, hsh⟩ := int4BE_shape es.length
          have hbe : beVal [a, b, c, d] = es.length := by
            rw [← hsh]
            exact beVal_int4BE _ hlb
          have hElen : (108 :: int4BE es.length ++ body ++ tb : List Nat).length
              = body.length + tb.length + 5 := by
            simp [int4BE]
          have hbuf : ((108 :: int4BE es.length ++ body ++ tb) ++ rest : List Nat)
              = 108 :: a :: b :: c :: d :: (body ++ (tb ++ rest)) := by
            rw [hsh]
            simp
          rw [hbuf]
          have hs : decodeSeq (decodeTermF loads f) (beVal [a, b, c, d])
              (body ++ (tb ++ rest)) = Except.ok (es, tb ++ rest) := by
            rw [hbe]
            refine decodeSeq_exact loads es hIH hcl body hb (tb ++ rest) f ?_
            simp only [List.length_append]
            omega
          have hd : decodeTermF loads f (tb ++ rest) = Except.ok (tl, rest) := by
            refine ihN tl hszN.2 hct tb htb rest f ?_
            omega
          rw [htb2] at hs hd
          simp only [List.cons_append] at hs hd
          exact dec_list_improper loads f a b c d hd0 (body ++ (tb ++ rest)) es
            (tb2 ++ rest) (by rw [htb2]; simp only [List.cons_append]; exact hs)
            hdne tl rest hd hlst hnp
      | .tuple es, ht =>
          simp only [canonB, Bool.and_eq_true, Bool.not_eq_true',
            decide_eq_true_eq] at hc
          obtain ⟨⟨hlb, hcl⟩, hmk⟩ := hc
          have hszN : tsizeList es ≤ N := by
            simp only [tsize] at ht
            omega
          have hIH : ∀ e ∈ es, canonB e = true → ∀ E2, encode_term e = Option.some E2 →
              ∀ r2 fuel2, E2.length + r2.length < fuel2 →
                decodeTermF loads fuel2 (E2 ++ r2) = Except.ok (e, r2) :=
            fun e he hce E2 hE2 r2 fuel2 hf2 =>
              ihN e (le_trans (tsize_le_of_mem he) hszN) hce E2 hE2 r2 fuel2 hf2
          have hplain : finishTuple loads es rest = Except.ok (Term.tuple es, rest) := by
            refine finishTuple_plain loads es rest ?_
            rintro ⟨e3, emk⟩
            rw [List.headD_eq_head?_getD] at emk
            simp [e3, emk] at hmk
          simp only [encode_term] at hE
          split_ifs at hE with h255
          · rcases hb : encodeSeq es with _ | body <;> rw [hb] at hE
            · simp [Bind.bind] at hE
            simp only [Bind.bind, Option.some_bind, Option.some.injEq] at hE
            subst hE
            have hbuf : ((104 :: es.length :: body) ++ rest : List Nat)
                = 104 :: es.length :: (body ++ rest) := rfl
            rw [hbuf]
            have hs : decodeSeq (decodeTermF loads f) es.length (body ++ rest)
                = Except.ok (es, rest) := by
              refine decodeSeq_exact loads es hIH hcl body hb rest f ?_
              simp only [List.length_cons, List.length_append] at hfuel
              omega
            rw [dec_tuple_small loads f es.length (body ++ rest) es rest hs, hplain]
          · rcases hb : encodeSeq es with _ | body <;> rw [hb] at hE
            · simp [Bind.bind] at hE
            simp only [Bind.bind, Option.some_bind, Option.some.injEq] at hE
            subst hE
            obtain ⟨a, b, c, d, hsh⟩ := int4BE_shape es.length
            have hbe : beVal [a, b, c, d] = es.length := by
              rw [← hsh]
              exact beVal_int4BE _ hlb
            have hbuf : ((105 :: int4BE es.length ++ body) ++ rest : List Nat)
                = 105 :: a :: b :: c :: d :: (body ++ rest) := by
              rw [hsh]
              simp
            rw [hbuf]
            have hs : decodeSeq (decodeTermF loads f) (beVal [a, b, c, d]) (body ++ rest)
                = Except.ok (es, rest) := by
              rw [hbe]
              refine decodeSeq_exact loads es hIH hcl body hb rest f ?_
              have hEl : (105 :: int4BE es.length ++ body : List Nat).length
                  = body.length + 5 := by
                simp [int4BE]
              omega
            rw [dec_tuple_large loads f a b c d (body ++ rest) es rest hs, hplain]
      | .opaqueObject data lang, _ =>
          simp only [canonB, Bool.and_eq_true, Bool.not_eq_true', bne_iff_ne, ne_eq,
            decide_eq_true_eq] at hc
          obtain ⟨⟨⟨⟨⟨⟨hdl, -⟩, hll⟩, -⟩, hres⟩, hnpy⟩, hner⟩ := hc
          simp only [reservedAtom, Bool.or_eq_false_iff, decide_eq_false_iff_not] at hres
          simp only [encode_term] at hE
          rw [if_neg hner] at hE
          have hm : encAtom markerBytes
              = Option.some (100 :: int2BE markerBytes.length ++ markerBytes) := by
            rw [encAtom, if_pos (by decide)]
          have hl2 : encAtom lang = Option.some (100 :: int2BE lang.length ++ lang) := by
            rw [encAtom, if_pos (by omega)]
          have hd2 : encBytesE data = Option.some (109 :: int4BE data.length ++ data) := by
            rw [encBytesE, if_pos hdl]
          rw [hm, hl2, hd2] at hE
          simp only [Bind.bind, Option.some_bind, Option.some.injEq] at hE
          subst hE
          rcases f with _ | g
          · exfalso
            have h2l : (2 : Nat) ≤ ((104 :: 3 :: (100 :: int2BE markerBytes.length
                ++ markerBytes) ++ (100 :: int2BE lang.length ++ lang)
                ++ (109 :: int4BE data.length ++ data)) : List Nat).length := by
              simp
            omega
          have hbuf : ∀ m2 l3 d4 r5 : List Nat,
              (((104 :: 3 :: m2) ++ l3) ++ d4) ++ r5
                = 104 :: 3 :: (m2 ++ (l3 ++ (d4 ++ r5))) := by
            intro m2 l3 d4 r5
            simp
          rw [hbuf]
          have hstep1 : decodeTermF loads (g + 1)
              ((100 :: int2BE markerBytes.length ++ markerBytes)
                ++ ((100 :: int2BE lang.length ++ lang)
                  ++ ((109 :: int4BE data.length ++ data) ++ rest)))
              = Except.ok (Term.atom markerBytes,
                  (100 :: int2BE lang.length ++ lang)
                    ++ ((109 :: int4BE data.length ++ data) ++ rest)) := by
            rw [dec_atom loads g markerBytes _ (by decide)]
            rw [if_neg (by decide), if_neg (by decide), if_neg (by decide),
              if_pos (by decide)]
          have hstep2 : decodeTermF loads (g + 1)
              ((100 :: int2BE lang.length ++ lang)
                ++ ((109 :: int4BE data.length ++ data) ++ rest))
              = Except.ok (Term.atom lang,
                  (109 :: int4BE data.length ++ data) ++ rest) := by
            rw [dec_atom loads g lang _ (by omega)]
            rw [if_neg hres.1.1, if_neg hres.1.2, if_neg hres.2, if_pos hll]
          have hstep3 : decodeTermF loads (g + 1)
              ((109 :: int4BE data.length ++ data) ++ rest)
              = Except.ok (Term.bytes data, rest) :=
            dec_binary loads g data rest hdl
          have hs : decodeSeq (decodeTermF loads (g + 1)) 3
              ((100 :: int2BE markerBytes.length ++ markerBytes)
                ++ ((100 :: int2BE lang.length ++ lang)
                  ++ ((109 :: int4BE data.length ++ data) ++ rest)))
              = Except.ok ([Term.atom markerBytes, Term.atom lang, Term.bytes data],
                  rest) := by
            simp only [decodeSeq, Bind.bind, Except.bind, hstep1, hstep2, hstep3]
          rw [dec_tuple_small loads (g + 1) 3 _ _ rest hs]
          have hdo : decodeOpaque loads (Term.bytes data) (Term.atom lang)
              = Except.ok ( Term.opaqueObject data lang) := by
            delta decodeOpaque
            rw [show pyStrEq (Term.atom lang) pythonBytes = false by
              simp [pyStrEq, hnpy]]
            rfl
          simp only [finishTuple]
          rw [if_pos (show pyStrEq (Term.atom markerBytes) markerBytes = true by
            simp [pyStrEq])]
          simp only [Bind.bind, Except.bind, hdo]

end ErlTerms
namespace ErlTerms

/-! ## Truncation behavior (`IncompleteData` on short buffers)

Every length-prefixed decoder branch checks the buffer before reading,
and raises `IncompleteData` when the buffer stops early. The lemmas of
this section capture each branch's short-buffer behavior, leading to
`pre_core`: a strict prefix of a canonical encoding always decodes to
`DErr.incomplete`. -/

/-- The empty buffer is `IncompleteData` (`if not string: raise`). -/
theorem dtf_incomplete_nil (loads : List Nat → Term) (f : Nat) :
    decodeTermF loads (f + 1) [] = Except.error DErr.incomplete := rfl

/-- A buffer that is a prefix of a longer left part equals the take of
that part, with a nonempty remainder inside it. -/
theorem pref_sub (q r h1 h2 : List Nat) (hp : q ++ r = h1 ++ h2)
    (hlen : q.length ≤ h1.length) : q ++ h1.drop q.length = h1 := by
  have ht : h1.take q.length = q := by
    have h := congrArg (List.take q.length) hp
    rw [List.take_left' rfl] at h
    rw [List.take_append_eq_append_take, Nat.sub_eq_zero_of_le hlen] at h
    simpa using h.symm
  calc q ++ h1.drop q.length
      = h1.take q.length ++ h1.drop q.length := by rw [ht]
    _ = h1 := List.take_append_drop ..

/-- A buffer that extends past a left part splits into that part and a
remainder aligned with the right part. -/
theorem pref_split (q r h1 h2 : List Nat) (hp : q ++ r = h1 ++ h2)
    (hlen : h1.length ≤ q.length) :
    q = h1 ++ q.drop h1.length ∧ q.drop h1.length ++ r = h2 := by
  have ht : q.take h1.length = h1 := by
    have h := congrArg (List.take h1.length) hp
    rw [List.take_append_eq_append_take, Nat.sub_eq_zero_of_le hlen] at h
    rw [List.take_left] at h
    simpa using h
  have hq : q = h1 ++ q.drop h1.length := by
    conv_lhs => rw [← List.take_append_drop h1.length q]
    rw [ht]
  have hcat : h1 ++ (q.drop h1.length ++ r) = h1 ++ h2 :=
    calc h1 ++ (q.drop h1.length ++ r)
        = (q.take h1.length ++ q.drop h1.length) ++ r := by
          rw [ht, List.append_assoc]
      _ = q ++ r := by rw [List.take_append_drop]
      _ = h1 ++ h2 := hp
  exact ⟨hq, List.append_cancel_left hcat⟩

/-- `INTEGER_EXT` with fewer than 4 payload bytes is incomplete. -/
theorem trunc_int4 (loads : List Nat → Term) (f : Nat) (rest1 : List Nat)
    (h : rest1.length < 4) :
    decodeTermF loads (f + 1) (98 :: rest1) = Except.error DErr.incomplete := by
  rcases rest1 with _ | ⟨a, _ | ⟨b, _ | ⟨c, _ | ⟨d, t⟩⟩⟩⟩
  · rfl
  · rfl
  · rfl
  · rfl
  · exact absurd h (by simp only [List.length_cons]; omega)

/-- `NEW_FLOAT_EXT` with fewer than 8 payload bytes is incomplete. -/
theorem trunc_float (loads : List Nat → Term) (f : Nat) (rest1 : List Nat)
    (h : rest1.length < 8) :
    decodeTermF loads (f + 1) (70 :: rest1) = Except.error DErr.incomplete := by
  rcases rest1 with _ | ⟨a, _ | ⟨b, _ | ⟨c, _ | ⟨d, _ | ⟨e, _ | ⟨g, _ | ⟨i, _ | ⟨j, t⟩⟩⟩⟩⟩⟩⟩⟩
  · rfl
  · rfl
  · rfl
  · rfl
  · rfl
  · rfl
  · rfl
  · rfl
  · exact absurd h (by simp only [List.length_cons]; omega)

/-- `SMALL_TUPLE_EXT` with no arity byte is incomplete. -/
theorem trunc_tuple1 (loads : List Nat → Term) (f : Nat) :
    decodeTermF loads (f + 1) [104] = Except.error DErr.incomplete := rfl

/-- `LARGE_TUPLE_EXT` with fewer than 4 arity bytes is incomplete. -/
theorem trunc_tuple4 (loads : List Nat → Term) (f : Nat) (rest1 : List Nat)
    (h : rest1.length < 4) :
    decodeTermF loads (f + 1) (105 :: rest1) = Except.error DErr.incomplete := by
  rcases rest1 with _ | ⟨a, _ | ⟨b, _ | ⟨c, _ | ⟨d, t⟩⟩⟩⟩
  · rfl
  · rfl
  · rfl
  · rfl
  · exact absurd h (by simp only [List.length_cons]; omega)

/-- `LIST_EXT` with fewer than 4 length bytes is incomplete. -/
theorem trunc_list4 (loads : List Nat → Term) (f : Nat) (rest1 : List Nat)
    (h : rest1.length < 4) :
    decodeTermF loads (f + 1) (108 :: rest1) = Except.error DErr.incomplete := by
  rcases rest1 with _ | ⟨a, _ | ⟨b, _ | ⟨c, _ | ⟨d, t⟩⟩⟩⟩
  · rfl
  · rfl
  · rfl
  · rfl
  · exact absurd h (by simp only [List.length_cons]; omega)

/-- `SMALL_BIG_EXT` with fewer than 2 header bytes is incomplete. -/
theorem trunc_big_small_hdr (loads : List Nat → Term) (f : Nat) (rest1 : List Nat)
    (h : rest1.length < 2) :
    decodeTermF loads (f + 1) (110 :: rest1) = Except.error DErr.incomplete := by
  rcases rest1 with _ | ⟨a, _ | ⟨b, t⟩⟩
  · rfl
  · rfl
  · exact absurd h (by simp only [List.length_cons]; omega)

/-- `LARGE_BIG_EXT` with fewer than 5 header bytes is incomplete. -/
theorem trunc_big_large_hdr (loads : List Nat → Term) (f : Nat) (rest1 : List Nat)
    (h : rest1.length < 5) :
    decodeTermF loads (f + 1) (111 :: rest1) = Except.error DErr.incomplete := by
  rcases rest1 with _ | ⟨a, _ | ⟨b, _ | ⟨c, _ | ⟨d, _ | ⟨e, t⟩⟩⟩⟩⟩
  · rfl
  · rfl
  · rfl
  · rfl
  · rfl
  · exact absurd h (by simp only [List.length_cons]; omega)

set_option maxRecDepth 8192 in
/-- `SMALL_BIG_EXT` whose digit area stops early is incomplete
(`if len(tail) < length: raise IncompleteData`). -/
theorem trunc_big_small_digits (loads : List Nat → Term) (f len sign : Nat)
    (tail : List Nat) (h : tail.length < len) :
    decodeTermF loads (f + 1) (110 :: len :: sign :: tail)
      = Except.error DErr.incomplete := by
  simp only [decodeTermF]
  norm_num [h]

set_option maxRecDepth 8192 in
/-- `LARGE_BIG_EXT` whose digit area stops early is incomplete. -/
theorem trunc_big_large_digits (loads : List Nat → Term) (f a b c d sign : Nat)
    (tail : List Nat) (h : tail.length < beVal [a, b, c, d]) :
    decodeTermF loads (f + 1) (111 :: a :: b :: c :: d :: sign :: tail)
      = Except.error DErr.incomplete := by
  simp only [decodeTermF]
  norm_num [h]

set_option maxRecDepth 8192 in
/-- `ATOM_EXT` whose name area stops early is incomplete
(`if ln < length: raise IncompleteData`). -/
theorem trunc_atom_body (loads : List Nat → Term) (f a b L : Nat) (q : List Nat)
    (hbv : beVal [a, b] = L) (h : q.length < L) :
    decodeTermF loads (f + 1) (100 :: a :: b :: q)
      = Except.error DErr.incomplete := by
  have hc1 : ¬((100 :: a :: b :: q).length < 3) := by
    simp only [List.length_cons]
    omega
  have hc2 : (100 :: a :: b :: q).length < beVal (List.take 2 (a :: b :: q)) + 3 := by
    rw [show List.take 2 (a :: b :: q) = [a, b] from rfl, hbv]
    simp only [List.length_cons]
    omega
  simp only [decodeTermF, if_true]
  rw [if_neg hc1, if_pos hc2]

set_option maxRecDepth 8192 in
/-- `STRING_EXT` whose byte area stops early is incomplete. -/
theorem trunc_str_body (loads : List Nat → Term) (f a b L : Nat) (q : List Nat)
    (hbv : beVal [a, b] = L) (h : q.length < L) :
    decodeTermF loads (f + 1) (107 :: a :: b :: q)
      = Except.error DErr.incomplete := by
  have hc1 : ¬((107 :: a :: b :: q).length < 3) := by
    simp only [List.length_cons]
    omega
  have hc2 : (107 :: a :: b :: q).length < beVal (List.take 2 (a :: b :: q)) + 3 := by
    rw [show List.take 2 (a :: b :: q) = [a, b] from rfl, hbv]
    simp only [List.length_cons]
    omega
  simp only [decodeTermF, if_true]
  rw [if_neg (show ¬((107 : Nat) = 100) by decide)]
  rw [if_neg (show ¬((107 : Nat) = 106) by decide)]
  rw [if_neg hc1, if_pos hc2]

set_option maxRecDepth 8192 in
/-- `BINARY_EXT` whose byte area stops early is incomplete. -/
theorem trunc_bin_body (loads : List Nat → Term) (f a b c d L : Nat) (q : List Nat)
    (hbv : beVal [a, b, c, d] = L) (h : q.length < L) :
    decodeTermF loads (f + 1) (109 :: a :: b :: c :: d :: q)
      = Except.error DErr.incomplete := by
  have hc1 : ¬((109 :: a :: b :: c :: d :: q).length < 5) := by
    simp only [List.length_cons]
    omega
  have hc2 : (109 :: a :: b :: c :: d :: q).length
      < beVal (List.take 4 (a :: b :: c :: d :: q)) + 5 := by
    rw [show List.take 4 (a :: b :: c :: d :: q) = [a, b, c, d] from rfl, hbv]
    simp only [List.length_cons]
    omega
  simp only [decodeTermF, if_true]
  rw [if_neg (show ¬((109 : Nat) = 100) by decide)]
  rw [if_neg (show ¬((109 : Nat) = 106) by decide)]
  rw [if_neg (show ¬((109 : Nat) = 107) by decide)]
  rw [if_neg (show ¬((109 : Nat) = 104) by decide)]
  rw [if_neg (show ¬((109 : Nat) = 105) by decide)]
  rw [if_neg (show ¬((109 : Nat) = 108) by decide)]
  rw [if_neg (show ¬((109 : Nat) = 97) by decide)]
  rw [if_neg (show ¬((109 : Nat) = 98) by decide)]
  rw [if_neg hc1, if_pos hc2]

/-- A strict prefix of an `ATOM_EXT` encoding is incomplete. -/
theorem atom_trunc (loads : List Nat → Term) (f : Nat) (name p r : List Nat)
    (hL : name.length ≤ 65535)
    (hp : p ++ r = 100 :: int2BE name.length ++ name) (hr : r ≠ []) :
    decodeTermF loads (f + 1) p = Except.error DErr.incomplete := by
  obtain ⟨a, b, hab⟩ : ∃ a b, int2BE name.length = [a, b] := ⟨_, _, rfl⟩
  rw [hab] at hp
  have hbv : beVal [a, b] = name.length := by
    rw [← hab]
    exact beVal_int2BE _ hL
  rcases p with _ | ⟨p0, p⟩
  · exact dtf_incomplete_nil loads f
  rcases p with _ | ⟨p1, p⟩
  · simp only [List.cons_append, List.nil_append, List.cons.injEq] at hp
    rw [hp.1]
    rfl
  rcases p with _ | ⟨p2, p⟩
  · simp only [List.cons_append, List.nil_append, List.cons.injEq] at hp
    rw [hp.1, hp.2.1]
    rfl
  simp only [List.cons_append, List.nil_append, List.cons.injEq] at hp
  obtain ⟨h0, h1, h2, hp⟩ := hp
  rw [h0, h1, h2]
  have hlen : p.length < name.length := by
    have hl := congrArg List.length hp
    simp only [List.length_append] at hl
    have hrp : 0 < r.length := List.length_pos.mpr hr
    omega
  exact trunc_atom_body loads f a b name.length p hbv hlen

/-- A strict prefix of a `STRING_EXT` encoding is incomplete. -/
theorem str_trunc (loads : List Nat → Term) (f : Nat) (bs p r : List Nat)
    (hL : bs.length ≤ 65535)
    (hp : p ++ r = 107 :: int2BE bs.length ++ bs) (hr : r ≠ []) :
    decodeTermF loads (f + 1) p = Except.error DErr.incomplete := by
  obtain ⟨a, b, hab⟩ : ∃ a b, int2BE bs.length = [a, b] := ⟨_, _, rfl⟩
  rw [hab] at hp
  have hbv : beVal [a, b] = bs.length := by
    rw [← hab]
    exact beVal_int2BE _ hL
  rcases p with _ | ⟨p0, p⟩
  · exact dtf_incomplete_nil loads f
  rcases p with _ | ⟨p1, p⟩
  · simp only [List.cons_append, List.nil_append, List.cons.injEq] at hp
    rw [hp.1]
    rfl
  rcases p with _ | ⟨p2, p⟩
  · simp only [List.cons_append, List.nil_append, List.cons.injEq] at hp
    rw [hp.1, hp.2.1]
    rfl
  simp only [List.cons_append, List.nil_append, List.cons.injEq] at hp
  obtain ⟨h0, h1, h2, hp⟩ := hp
  rw [h0, h1, h2]
  have hlen : p.length < bs.length := by
    have hl := congrArg List.length hp
    simp only [List.length_append] at hl
    have hrp : 0 < r.length := List.length_pos.mpr hr
    omega
  exact trunc_str_body loads f a b bs.length p hbv hlen

/-- A strict prefix of a `BINARY_EXT` encoding is incomplete. -/
theorem bin_trunc (loads : List Nat → Term) (f : Nat) (bs p r : List Nat)
    (hL : bs.length ≤ 4294967295)
    (hp : p ++ r = 109 :: int4BE bs.length ++ bs) (hr : r ≠ []) :
    decodeTermF loads (f + 1) p = Except.error DErr.incomplete := by
  obtain ⟨a, b, c, d, hab⟩ := int4BE_shape bs.length
  rw [hab] at hp
  have hbv : beVal [a, b, c, d] = bs.length := by
    rw [← hab]
    exact beVal_int4BE _ hL
  rcases p with _ | ⟨p0, p⟩
  · exact dtf_incomplete_nil loads f
  rcases p with _ | ⟨p1, p⟩
  · simp only [List.cons_append, List.nil_append, List.cons.injEq] at hp
    rw [hp.1]
    rfl
  rcases p with _ | ⟨p2, p⟩
  · simp only [List.cons_append, List.nil_append, List.cons.injEq] at hp
    rw [hp.1, hp.2.1]
    rfl
  rcases p with _ | ⟨p3, p⟩
  · simp only [List.cons_append, List.nil_append, List.cons.injEq] at hp
    rw [hp.1, hp.2.1, hp.2.2.1]
    rfl
  rcases p with _ | ⟨p4, p⟩
  · simp only [List.cons_append, List.nil_append, List.cons.injEq] at hp
    rw [hp.1, hp.2.1, hp.2.2.1, hp.2.2.2.1]
    rfl
  simp only [List.cons_append, List.nil_append, List.cons.injEq] at hp
  obtain ⟨h0, h1, h2, h3, h4, hp⟩ := hp
  rw [h0, h1, h2, h3, h4]
  have hlen : p.length < bs.length := by
    have hl := congrArg List.length hp
    simp only [List.length_append] at hl
    have hrp : 0 < r.length := List.length_pos.mpr hr
    omega
  exact trunc_bin_body loads f a b c d bs.length p hbv hlen

/-- An erroring element loop propagates through `SMALL_TUPLE_EXT`. -/
theorem dec_tuple_small_err (loads : List Nat → Term) (f arity : Nat)
    (tail : List Nat) (er : DErr)
    (hs : decodeSeq (decodeTermF loads f) arity tail = Except.error er) :
    decodeTermF loads (f + 1) (104 :: arity :: tail) = Except.error er := by
  simp only [decodeTermF]
  norm_num [hs, Bind.bind, Except.bind]

set_option maxRecDepth 8192 in
/-- An erroring element loop propagates through `LARGE_TUPLE_EXT`. -/
theorem dec_tuple_large_err (loads : List Nat → Term) (f a b c d : Nat)
    (tail : List Nat) (er : DErr)
    (hs : decodeSeq (decodeTermF loads f) (beVal [a, b, c, d]) tail
      = Except.error er) :
    decodeTermF loads (f + 1) (105 :: a :: b :: c :: d :: tail)
      = Except.error er := by
  simp only [decodeTermF]
  norm_num [hs, Bind.bind, Except.bind]

set_option maxRecDepth 8192 in
/-- An erroring element loop propagates through `LIST_EXT`. -/
theorem dec_list_err (loads : List Nat → Term) (f a b c d : Nat)
    (tail : List Nat) (er : DErr)
    (hs : decodeSeq (decodeTermF loads f) (beVal [a, b, c, d]) tail
      = Except.error er) :
    decodeTermF loads (f + 1) (108 :: a :: b :: c :: d :: tail)
      = Except.error er := by
  simp only [decodeTermF]
  norm_num [hs, Bind.bind, Except.bind]

set_option maxRecDepth 8192 in
/-- A `LIST_EXT` whose buffer ends right after the elements is
incomplete (`if not tail: raise IncompleteData`). -/
theorem dec_list_nil_tail (loads : List Nat → Term) (f a b c d : Nat)
    (tail : List Nat) (lst : List Term)
    (hs : decodeSeq (decodeTermF loads f) (beVal [a, b, c, d]) tail
      = Except.ok (lst, [])) :
    decodeTermF loads (f + 1) (108 :: a :: b :: c :: d :: tail)
      = Except.error DErr.incomplete := by
  simp only [decodeTermF]
  norm_num [hs, Bind.bind, Except.bind]

set_option maxRecDepth 8192 in
/-- An erroring improper-tail decode propagates through `LIST_EXT`. -/
theorem dec_list_improper_err (loads : List Nat → Term) (f a b c d h : Nat)
    (tail : List Nat) (lst : List Term) (r2 : List Nat) (er : DErr)
    (hs : decodeSeq (decodeTermF loads f) (beVal [a, b, c, d]) tail
      = Except.ok (lst, h :: r2))
    (hne : h ≠ 106)
    (hd : decodeTermF loads f (h :: r2) = Except.error er) :
    decodeTermF loads (f + 1) (108 :: a :: b :: c :: d :: tail)
      = Except.error er := by
  simp only [decodeTermF]
  norm_num [hs, Bind.bind, Except.bind]
  split
  · rename_i rest2 heq
    simp at heq
  · rename_i rest2 r2b heq
    simp only [List.cons.injEq] at heq
    exact absurd heq.1 hne
  · rw [hd]

end ErlTerms
namespace ErlTerms

/-- Splitting a buffer that covers a header: the buffer is the header
plus a remainder aligned with the rest. -/
theorem hdr_split (p r hdr rest2 : List Nat) (hp : p ++ r = hdr ++ rest2)
    (hlen : hdr.length ≤ p.length) :
    ∃ q, p = hdr ++ q ∧ q ++ r = rest2 :=
  ⟨p.drop hdr.length, (pref_split p r hdr rest2 hp hlen).1,
    (pref_split p r hdr rest2 hp hlen).2⟩

/-- A buffer shorter than a left part is a strict prefix of it. -/
theorem sub_split (q r h1 h2 : List Nat) (hp : q ++ r = h1 ++ h2)
    (hlen : q.length < h1.length) :
    ∃ r1, q ++ r1 = h1 ∧ r1 ≠ [] := by
  refine ⟨h1.drop q.length, pref_sub q r h1 h2 hp (le_of_lt hlen), ?_⟩
  intro hnil
  have hl := congrArg List.length hnil
  simp only [List.length_drop, List.length_nil] at hl
  omega

/-- Each member of a canonical element list is canonical. -/
theorem canonList_mem : ∀ {es : List Term}, canonList es = true →
    ∀ {e : Term}, e ∈ es → canonB e = true := by
  intro es
  induction es with
  | nil =>
      intro _ e he
      simp at he
  | cons t ts ih =>
      intro hcl e he
      simp only [canonList, Bool.and_eq_true] at hcl
      rcases List.mem_cons.mp he with h | h
      · subst h
        exact hcl.1
      · exact ih hcl.2 h

/-- The element loop on a strict prefix of the elements' concatenated
encodings errors with `IncompleteData`: complete elements are consumed
exactly, and the cut element's decode reports the truncation. -/
theorem decodeSeq_prefix (loads : List Nat → Term) (f : Nat) :
    ∀ es : List Term,
      (∀ e ∈ es, ∀ E2, encode_term e = Option.some E2 →
        ∀ r2, E2.length + r2.length < f →
          decodeTermF loads f (E2 ++ r2) = Except.ok (e, r2)) →
      (∀ e ∈ es, ∀ E2, encode_term e = Option.some E2 →
        ∀ p2 r2, p2 ++ r2 = E2 → r2 ≠ [] → p2.length < f →
          decodeTermF loads f p2 = Except.error DErr.incomplete) →
      ∀ body, encodeSeq es = Option.some body →
      ∀ q r, q ++ r = body → r ≠ [] → q.length < f →
        decodeSeq (decodeTermF loads f) es.length q
          = Except.error DErr.incomplete := by
  intro es
  induction es with
  | nil =>
      intro _ _ body hbody q r hqr hr _
      simp only [encodeSeq, Option.some.injEq] at hbody
      subst hbody
      exact absurd (List.append_eq_nil.mp hqr).2 hr
  | cons e ts ih =>
      intro hok hpre body hbody q r hqr hr hqf
      simp only [encodeSeq] at hbody
      rcases h1 : encode_term e with _ | E1 <;> rw [h1] at hbody
      · simp [Bind.bind] at hbody
      rcases h2 : encodeSeq ts with _ | bs <;> rw [h2] at hbody
      · simp [Bind.bind] at hbody
      simp only [Bind.bind, Option.some_bind, Option.some.injEq] at hbody
      subst hbody
      by_cases hlen : q.length < E1.length
      · obtain ⟨r1, hsub, hr1⟩ := sub_split q r E1 bs hqr hlen
        have hstep := hpre e (List.mem_cons_self e ts) E1 h1 q r1 hsub hr1 hqf
        simp only [List.length_cons, decodeSeq, Bind.bind, Except.bind, hstep]
      · push_neg at hlen
        obtain ⟨q2, hq, htl⟩ := hdr_split q r E1 bs hqr hlen
        have hqlen : q.length = E1.length + q2.length := by
          have hl := congrArg List.length hq
          simp only [List.length_append] at hl
          omega
        have hstep := hok e (List.mem_cons_self e ts) E1 h1 q2 (by omega)
        have hrec := ih (fun e2 he2 => hok e2 (List.mem_cons_of_mem e he2))
          (fun e2 he2 => hpre e2 (List.mem_cons_of_mem e he2)) bs h2
          q2 r htl hr (by omega)
        rw [hq]
        simp only [List.length_cons, decodeSeq, Bind.bind, Except.bind, hstep, hrec]

end ErlTerms

namespace ErlTerms

set_option maxRecDepth 8192 in
/-- Prefix-safety core: every strict prefix of the canonical encoding
of a canonical term decodes to `IncompleteData` (never a hard error or
a wrong value), at any fuel exceeding the prefix length. -/
theorem pre_core (loads : List Nat → Term) :
    ∀ N t, tsize t ≤ N → canonB t = true → ∀ E, encode_term t = Option.some E →
      ∀ p r, p ++ r = E → r ≠ [] → ∀ fuel, p.length < fuel →
        decodeTermF loads fuel p = Except.error DErr.incomplete := by
  intro N
  induction N with
  | zero =>
      intro t ht
      have := tsize_pos t
      exact absurd ht (by omega)
  | succ N ihN =>
      intro t ht hc E hE p r hp hr fuel hfuel
      rcases fuel with _ | f
      · omega
      match t, ht with
      | .int n, _ =>
          simp only [encode_term, encInt] at hE
          split_ifs at hE with h1 h2 h3 h3b h4 h4b <;>
            (simp only [Option.some.injEq] at hE
             subst hE)
          · -- [97, n.toNat]
            rcases p with _ | ⟨p0, p⟩
            · exact dtf_incomplete_nil loads f
            simp only [List.cons_append, List.cons.injEq] at hp
            obtain ⟨h0, hp⟩ := hp
            subst h0
            rcases p with _ | ⟨p1, p⟩
            · rfl
            simp only [List.cons_append, List.cons.injEq] at hp
            exact absurd (List.append_eq_nil.mp hp.2).2 hr
          · -- 98 :: signedInt4BE n
            obtain ⟨a, b, c, d, hsh⟩ : ∃ a b c d, signedInt4BE n = [a, b, c, d] :=
              ⟨_, _, _, _, rfl⟩
            rw [hsh] at hp
            rcases p with _ | ⟨p0, p⟩
            · exact dtf_incomplete_nil loads f
            simp only [List.cons_append, List.cons.injEq] at hp
            obtain ⟨h0, hp⟩ := hp
            subst h0
            have hplen : p.length < 4 := by
              have hl := congrArg List.length hp
              simp only [List.length_append, List.length_cons, List.length_nil] at hl
              have := List.length_pos.mpr hr
              omega
            exact trunc_int4 loads f p hplen
          · -- small bignum, nonnegative
            rcases p with _ | ⟨p0, p⟩
            · exact dtf_incomplete_nil loads f
            simp only [List.cons_append, List.cons.injEq] at hp
            obtain ⟨h0, hp⟩ := hp
            subst h0
            by_cases hp2 : p.length < 2
            · exact trunc_big_small_hdr loads f p hp2
            · push_neg at hp2
              obtain ⟨q, hq, htl⟩ := hdr_split p r
                [(magDigits n.natAbs).length, 0] (magDigits n.natAbs) hp
                (by simpa using hp2)
              have hqlen : q.length < (magDigits n.natAbs).length := by
                have hl := congrArg List.length htl
                simp only [List.length_append] at hl
                have := List.length_pos.mpr hr
                omega
              rw [hq]
              exact trunc_big_small_digits loads f (magDigits n.natAbs).length 0
                q hqlen
          · -- small bignum, negative
            rcases p with _ | ⟨p0, p⟩
            · exact dtf_incomplete_nil loads f
            simp only [List.cons_append, List.cons.injEq] at hp
            obtain ⟨h0, hp⟩ := hp
            subst h0
            by_cases hp2 : p.length < 2
            · exact trunc_big_small_hdr loads f p hp2
            · push_neg at hp2
              obtain ⟨q, hq, htl⟩ := hdr_split p r
                [(magDigits n.natAbs).length, 1] (magDigits n.natAbs) hp
                (by simpa using hp2)
              have hqlen : q.length < (magDigits n.natAbs).length := by
                have hl := congrArg List.length htl
                simp only [List.length_append] at hl
                have := List.length_pos.mpr hr
                omega
              rw [hq]
              exact trunc_big_small_digits loads f (magDigits n.natAbs).length 1
                q hqlen
          · -- large bignum, nonnegative
            obtain ⟨a, b, c, d, hsh⟩ := int4BE_shape (magDigits n.natAbs).length
            have hbe : beVal [a, b, c, d] = (magDigits n.natAbs).length := by
              rw [← hsh]
              exact beVal_int4BE _ h4
            rw [hsh] at hp
            rcases p with _ | ⟨p0, p⟩
            · exact dtf_incomplete_nil loads f
            simp only [List.cons_append, List.nil_append, List.cons.injEq] at hp
            obtain ⟨h0, hp⟩ := hp
            subst h0
            by_cases hp5 : p.length < 5
            · exact trunc_big_large_hdr loads f p hp5
            · push_neg at hp5
              obtain ⟨q, hq, htl⟩ := hdr_split p r
                [a, b, c, d, 0] (magDigits n.natAbs) (by simpa using hp)
                (by simpa using hp5)
              have hqlen : q.length < beVal [a, b, c, d] := by
                rw [hbe]
                have hl := congrArg List.length htl
                simp only [List.length_append] at hl
                have := List.length_pos.mpr hr
                omega
              rw [hq]
              exact trunc_big_large_digits loads f a b c d 0 q hqlen
          · -- large bignum, negative
            obtain ⟨a, b, c, d, hsh⟩ := int4BE_shape (magDigits n.natAbs).length
            have hbe : beVal [a, b, c, d] = (magDigits n.natAbs).length := by
              rw [← hsh]
              exact beVal_int4BE _ h4
            rw [hsh] at hp
            rcases p with _ | ⟨p0, p⟩
            · exact dtf_incomplete_nil loads f
            simp only [List.cons_append, List.nil_append, List.cons.injEq] at hp
            obtain ⟨h0, hp⟩ := hp
            subst h0
            by_cases hp5 : p.length < 5
            · exact trunc_big_large_hdr loads f p hp5
            · push_neg at hp5
              obtain ⟨q, hq, htl⟩ := hdr_split p r
                [a, b, c, d, 1] (magDigits n.natAbs) (by simpa using hp)
                (by simpa using hp5)
              have hqlen : q.length < beVal [a, b, c, d] := by
                rw [hbe]
                have hl := congrArg List.length htl
                simp only [List.length_append] at hl
                have := List.length_pos.mpr hr
                omega
              rw [hq]
              exact trunc_big_large_digits loads f a b c d 1 q hqlen
      | .float bits, _ =>
          simp only [encode_term, Option.some.injEq] at hE
          subst hE
          obtain ⟨a, b, c, d, e, f2, g, k, hsh⟩ :
              ∃ a b c d e f2 g k, int8BE bits = [a, b, c, d, e, f2, g, k] :=
            ⟨_, _, _, _, _, _, _, _, rfl⟩
          rw [hsh] at hp
          rcases p with _ | ⟨p0, p⟩
          · exact dtf_incomplete_nil loads f
          simp only [List.cons_append, List.cons.injEq] at hp
          obtain ⟨h0, hp⟩ := hp
          subst h0
          have hplen : p.length < 8 := by
            have hl := congrArg List.length hp
            simp only [List.length_append, List.length_cons, List.length_nil] at hl
            have := List.length_pos.mpr hr
            omega
          exact trunc_float loads f p hplen
      | .charlist cs, _ => simp [canonB] at hc
      | .bytes data, _ =>
          have hlen : data.length ≤ 4294967295 := by
            simp only [canonB, Bool.and_eq_true, decide_eq_true_eq] at hc
            exact hc.1
          simp only [encode_term, encBytesE] at hE
          rw [if_pos hlen] at hE
          simp only [Option.some.injEq] at hE
          subst hE
          exact bin_trunc loads f data p r hlen hp hr
      | .atom name, _ =>
          simp only [canonB, Bool.and_eq_true, Bool.not_eq_true',
            decide_eq_true_eq] at hc
          obtain ⟨⟨h255, -⟩, -⟩ := hc
          simp only [encode_term, encAtom] at hE
          rw [if_pos (by omega)] at hE
          simp only [Option.some.injEq] at hE
          subst hE
          exact atom_trunc loads f name p r (by omega) hp hr
      | .bool bv, _ =>
          rcases bv
          · rw [show encode_term (Term.bool false)
              = Option.some (100 :: int2BE 5 ++ strBytes "false") from rfl] at hE
            simp only [Option.some.injEq] at hE
            subst hE
            exact atom_trunc loads f (strBytes "false") p r (by decide) hp hr
          · rw [show encode_term (Term.bool true)
              = Option.some (100 :: int2BE 4 ++ strBytes "true") from rfl] at hE
            simp only [Option.some.injEq] at hE
            subst hE
            exact atom_trunc loads f (strBytes "true") p r (by decide) hp hr
      | .none, _ =>
          simp only [encode_term, Option.some.injEq] at hE
          subst hE
          exact atom_trunc loads f (strBytes "undefined") p r (by decide) hp hr
      | .list es, ht =>
          simp only [canonB, Bool.and_eq_true, Bool.not_eq_true',
            decide_eq_true_eq] at hc
          obtain ⟨⟨hlb, hcl⟩, -⟩ := hc
          have hszN : tsizeList es ≤ N := by
            simp only [tsize] at ht
            omega
          simp only [encode_term] at hE
          split_ifs at hE with h0 h1
          · -- nil
            simp only [Option.some.injEq] at hE
            subst hE
            rcases p with _ | ⟨p0, p⟩
            · exact dtf_incomplete_nil loads f
            simp only [List.cons_append, List.cons.injEq] at hp
            exact absurd (List.append_eq_nil.mp hp.2).2 hr
          · rcases hcb : compactBytes es with _ | bs <;> rw [hcb] at hE
            · -- general form, length within the compact range
              rcases hb : encodeSeq es with _ | body <;> rw [hb] at hE
              · simp [Bind.bind] at hE
              simp only [Bind.bind, Option.some_bind, Option.some.injEq] at hE
              subst hE
              obtain ⟨a, b, c, d, hsh⟩ := int4BE_shape es.length
              have hbe : beVal [a, b, c, d] = es.length := by
                rw [← hsh]
                exact beVal_int4BE _ hlb
              rw [hsh] at hp
              simp only [List.cons_append, List.nil_append, List.append_assoc,
                List.cons.injEq] at hp
              rcases p with _ | ⟨p0, p⟩
              · exact dtf_incomplete_nil loads f
              simp only [List.cons_append, List.cons.injEq] at hp
              obtain ⟨h0c, hp⟩ := hp
              subst h0c
              simp only [List.length_cons] at hfuel
              by_cases hp4 : p.length < 4
              · exact trunc_list4 loads f p hp4
              · push_neg at hp4
                obtain ⟨q, hq, htl⟩ := hdr_split p r [a, b, c, d]
                  (body ++ [106]) (by simpa [List.append_assoc] using hp)
                  (by simpa using hp4)
                have hqplen : p.length = 4 + q.length := by
                  have hl := congrArg List.length hq
                  simp only [List.length_append, List.length_cons,
                    List.length_nil] at hl
                  omega
                have hokE : ∀ e ∈ es, ∀ E2, encode_term e = Option.some E2 →
                    ∀ r2, E2.length + r2.length < f →
                      decodeTermF loads f (E2 ++ r2) = Except.ok (e, r2) :=
                  fun e he E2 hE2 r2 hl2 =>
                    dec_enc_core loads (tsize e) e le_rfl (canonList_mem hcl he)
                      E2 hE2 r2 f hl2
                have hpreE : ∀ e ∈ es, ∀ E2, encode_term e = Option.some E2 →
                    ∀ p2 r2, p2 ++ r2 = E2 → r2 ≠ [] → p2.length < f →
                      decodeTermF loads f p2 = Except.error DErr.incomplete :=
                  fun e he E2 hE2 p2 r2 hp2 hr2 hl2 =>
                    ihN e (le_trans (tsize_le_of_mem he) hszN)
                      (canonList_mem hcl he) E2 hE2 p2 r2 hp2 hr2 f hl2
                by_cases hql : q.length < body.length
                · obtain ⟨r1, hsub, hr1⟩ := sub_split q r body [106] htl hql
                  have hseq := decodeSeq_prefix loads f es hokE hpreE body hb
                    q r1 hsub hr1 (by omega)
                  have hs2 : decodeSeq (decodeTermF loads f) (beVal [a, b, c, d]) q
                      = Except.error DErr.incomplete := by
                    rw [hbe]
                    exact hseq
                  rw [hq]
                  exact dec_list_err loads f a b c d q DErr.incomplete hs2
                · push_neg at hql
                  have hqeq : q.length = body.length := by
                    have hl := congrArg List.length htl
                    simp only [List.length_append, List.length_cons,
                      List.length_nil] at hl
                    have := List.length_pos.mpr hr
                    omega
                  obtain ⟨hqb, -⟩ := List.append_inj htl hqeq
                  have hIH : ∀ e ∈ es, canonB e = true →
                      ∀ E2, encode_term e = Option.some E2 →
                      ∀ r2 fuel2, E2.length + r2.length < fuel2 →
                        decodeTermF loads fuel2 (E2 ++ r2) = Except.ok (e, r2) :=
                    fun e _ hce E2 hE2 r2 fuel2 hf2 =>
                      dec_enc_core loads (tsize e) e le_rfl hce E2 hE2 r2 fuel2 hf2
                  have hseq : decodeSeq (decodeTermF loads f) es.length body
                      = Except.ok (es, []) := by
                    have := decodeSeq_exact loads es hIH hcl body hb [] f
                      (by simp only [List.length_nil]; omega)
                    simpa using this
                  have hs2 : decodeSeq (decodeTermF loads f) (beVal [a, b, c, d]) q
                      = Except.ok (es, []) := by
                    rw [hbe, hqb]
                    exact hseq
                  rw [hq]
                  exact dec_list_nil_tail loads f a b c d q es hs2
            · -- compact form
              simp only [Option.some.injEq] at hE
              subst hE
              have hbl := compactBytes_length es bs hcb
              rw [← hbl] at hp
              exact str_trunc loads f bs p r (by omega) hp hr
          · -- general form, length above the compact range
            rcases hb : encodeSeq es with _ | body <;> rw [hb] at hE
            · simp [Bind.bind] at hE
            simp only [Bind.bind, Option.some_bind, Option.some.injEq] at hE
            subst hE
            obtain ⟨a, b, c, d, hsh⟩ := int4BE_shape es.length
            have hbe : beVal [a, b, c, d] = es.length := by
              rw [← hsh]
              exact beVal_int4BE _ hlb
            rw [hsh] at hp
            simp only [List.cons_append, List.nil_append, List.append_assoc,
              List.cons.injEq] at hp
            rcases p with _ | ⟨p0, p⟩
            · exact dtf_incomplete_nil loads f
            simp only [List.cons_append, List.cons.injEq] at hp
            obtain ⟨h0c, hp⟩ := hp
            subst h0c
            simp only [List.length_cons] at hfuel
            by_cases hp4 : p.length < 4
            · exact trunc_list4 loads f p hp4
            · push_neg at hp4
              obtain ⟨q, hq, htl⟩ := hdr_split p r [a, b, c, d]
                (body ++ [106]) (by simpa [List.append_assoc] using hp)
                (by simpa using hp4)
              have hqplen : p.length = 4 + q.length := by
                have hl := congrArg List.length hq
                simp only [List.length_append, List.length_cons,
                  List.length_nil] at hl
                omega
              have hokE : ∀ e ∈ es, ∀ E2, encode_term e = Option.some E2 →
                  ∀ r2, E2.length + r2.length < f →
                    decodeTermF loads f (E2 ++ r2) = Except.ok (e, r2) :=
                fun e he E2 hE2 r2 hl2 =>
                  dec_enc_core loads (tsize e) e le_rfl (canonList_mem hcl he)
                    E2 hE2 r2 f hl2
              have hpreE : ∀ e ∈ es, ∀ E2, encode_term e = Option.some E2 →
                  ∀ p2 r2, p2 ++ r2 = E2 → r2 ≠ [] → p2.length < f →
                    decodeTermF loads f p2 = Except.error DErr.incomplete :=
                fun e he E2 hE2 p2 r2 hp2 hr2 hl2 =>
                  ihN e (le_trans (tsize_le_of_mem he) hszN)
                    (canonList_mem hcl he) E2 hE2 p2 r2 hp2 hr2 f hl2
              by_cases hql : q.length < body.length
              · obtain ⟨r1, hsub, hr1⟩ := sub_split q r body [106] htl hql
                have hseq := decodeSeq_prefix loads f es hokE hpreE body hb
                  q r1 hsub hr1 (by omega)
                have hs2 : decodeSeq (decodeTermF loads f) (beVal [a, b, c, d]) q
                    = Except.error DErr.incomplete := by
                  rw [hbe]
                  exact hseq
                rw [hq]
                exact dec_list_err loads f a b c d q DErr.incomplete hs2
              · push_neg at hql
                have hqeq : q.length = body.length := by
                  have hl := congrArg List.length htl
                  simp only [List.length_append, List.length_cons,
                    List.length_nil] at hl
                  have := List.length_pos.mpr hr
                  omega
                obtain ⟨hqb, -⟩ := List.append_inj htl hqeq
                have hIH : ∀ e ∈ es, canonB e = true →
                    ∀ E2, encode_term e = Option.some E2 →
                    ∀ r2 fuel2, E2.length + r2.length < fuel2 →
                      decodeTermF loads fuel2 (E2 ++ r2) = Except.ok (e, r2) :=
                  fun e _ hce E2 hE2 r2 fuel2 hf2 =>
                    dec_enc_core loads (tsize e) e le_rfl hce E2 hE2 r2 fuel2 hf2
                have hseq : decodeSeq (decodeTermF loads f) es.length body
                    = Except.ok (es, []) := by
                  have := decodeSeq_exact loads es hIH hcl body hb [] f
                    (by simp only [List.length_nil]; omega)
                  simpa using this
                have hs2 : decodeSeq (decodeTermF loads f) (beVal [a, b, c, d]) q
                    = Except.ok (es, []) := by
                  rw [hbe, hqb]
                  exact hseq
                rw [hq]
                exact dec_list_nil_tail loads f a b c d q es hs2
      | .tuple es, ht =>
          simp only [canonB, Bool.and_eq_true, Bool.not_eq_true',
            decide_eq_true_eq] at hc
          obtain ⟨⟨hlb, hcl⟩, -⟩ := hc
          have hszN : tsizeList es ≤ N := by
            simp only [tsize] at ht
            omega
          have hokE : ∀ e ∈ es, ∀ E2, encode_term e = Option.some E2 →
              ∀ r2, E2.length + r2.length < f →
                decodeTermF loads f (E2 ++ r2) = Except.ok (e, r2) :=
            fun e he E2 hE2 r2 hl2 =>
              dec_enc_core loads (tsize e) e le_rfl (canonList_mem hcl he)
                E2 hE2 r2 f hl2
          have hpreE : ∀ e ∈ es, ∀ E2, encode_term e = Option.some E2 →
              ∀ p2 r2, p2 ++ r2 = E2 → r2 ≠ [] → p2.length < f →
                decodeTermF loads f p2 = Except.error DErr.incomplete :=
            fun e he E2 hE2 p2 r2 hp2 hr2 hl2 =>
              ihN e (le_trans (tsize_le_of_mem he) hszN)
                (canonList_mem hcl he) E2 hE2 p2 r2 hp2 hr2 f hl2
          simp only [encode_term] at hE
          split_ifs at hE with h0 h1
          · -- small tuple
            rcases hb : encodeSeq es with _ | body <;> rw [hb] at hE
            · simp [Bind.bind] at hE
            simp only [Bind.bind, Option.some_bind, Option.some.injEq] at hE
            subst hE
            rcases p with _ | ⟨p0, p⟩
            · exact dtf_incomplete_nil loads f
            simp only [List.cons_append, List.cons.injEq] at hp
            obtain ⟨h0c, hp⟩ := hp
            subst h0c
            rcases p with _ | ⟨p1, p⟩
            · exact trunc_tuple1 loads f
            simp only [List.cons_append, List.cons.injEq] at hp
            obtain ⟨h1c, hp⟩ := hp
            subst h1c
            simp only [List.length_cons] at hfuel
            have hseq := decodeSeq_prefix loads f es hokE hpreE body hb
              p r hp hr (by omega)
            exact dec_tuple_small_err loads f es.length p DErr.incomplete hseq
          · -- large tuple
            rcases hb : encodeSeq es with _ | body <;> rw [hb] at hE
            · simp [Bind.bind] at hE
            simp only [Bind.bind, Option.some_bind, Option.some.injEq] at hE
            subst hE
            obtain ⟨a, b, c, d, hsh⟩ := int4BE_shape es.length
            have hbe : beVal [a, b, c, d] = es.length := by
              rw [← hsh]
              exact beVal_int4BE _ hlb
            rw [hsh] at hp
            rcases p with _ | ⟨p0, p⟩
            · exact dtf_incomplete_nil loads f
            simp only [List.cons_append, List.nil_append, List.cons.injEq] at hp
            obtain ⟨h0c, hp⟩ := hp
            subst h0c
            simp only [List.length_cons] at hfuel
            by_cases hp4 : p.length < 4
            · exact trunc_tuple4 loads f p hp4
            · push_neg at hp4
              obtain ⟨q, hq, htl⟩ := hdr_split p r [a, b, c, d] body
                (by simpa using hp) (by simpa using hp4)
              have hqplen : p.length = 4 + q.length := by
                have hl := congrArg List.length hq
                simp only [List.length_append, List.length_cons,
                  List.length_nil] at hl
                omega
              have hseq := decodeSeq_prefix loads f es hokE hpreE body hb
                q r htl hr (by omega)
              have hs2 : decodeSeq (decodeTermF loads f) (beVal [a, b, c, d]) q
                  = Except.error DErr.incomplete := by
                rw [hbe]
                exact hseq
              rw [hq]
              exact dec_tuple_large_err loads f a b c d q DErr.incomplete hs2
      | .improper es tl, ht =>
          simp only [canonB, Bool.and_eq_true, Bool.not_eq_true',
            decide_eq_true_eq] at hc
          obtain ⟨⟨⟨⟨-, hlb⟩, hcl⟩, hctl⟩, hnpl⟩ := hc
          have hszN : tsizeList es ≤ N ∧ tsize tl ≤ N := by
            simp only [tsize] at ht
            omega
          have hokE : ∀ e ∈ es, ∀ E2, encode_term e = Option.some E2 →
              ∀ r2, E2.length + r2.length < f →
                decodeTermF loads f (E2 ++ r2) = Except.ok (e, r2) :=
            fun e he E2 hE2 r2 hl2 =>
              dec_enc_core loads (tsize e) e le_rfl (canonList_mem hcl he)
                E2 hE2 r2 f hl2
          have hpreE : ∀ e ∈ es, ∀ E2, encode_term e = Option.some E2 →
              ∀ p2 r2, p2 ++ r2 = E2 → r2 ≠ [] → p2.length < f →
                decodeTermF loads f p2 = Except.error DErr.incomplete :=
            fun e he E2 hE2 p2 r2 hp2 hr2 hl2 =>
              ihN e (le_trans (tsize_le_of_mem he) hszN.1)
                (canonList_mem hcl he) E2 hE2 p2 r2 hp2 hr2 f hl2
          simp only [encode_term] at hE
          rw [if_pos hlb] at hE
          rcases hb : encodeSeq es with _ | body <;> rw [hb] at hE
          · simp [Bind.bind] at hE
          rcases htb : encode_term tl with _ | tb <;> rw [htb] at hE
          · simp [Bind.bind] at hE
          simp only [Bind.bind, Option.some_bind, Option.some.injEq] at hE
          subst hE
          obtain ⟨a, b, c, d, hsh⟩ := int4BE_shape es.length
          have hbe : beVal [a, b, c, d] = es.length := by
            rw [← hsh]
            exact beVal_int4BE _ hlb
          rw [hsh] at hp
          simp only [List.cons_append, List.nil_append, List.append_assoc,
            List.cons.injEq] at hp
          rcases p with _ | ⟨p0, p⟩
          · exact dtf_incomplete_nil loads f
          simp only [List.cons_append, List.cons.injEq] at hp
          obtain ⟨h0c, hp⟩ := hp
          subst h0c
          simp only [List.length_cons] at hfuel
          by_cases hp4 : p.length < 4
          · exact trunc_list4 loads f p hp4
          · push_neg at hp4
            obtain ⟨q, hq, htl⟩ := hdr_split p r [a, b, c, d]
              (body ++ tb) (by simpa [List.append_assoc] using hp)
              (by simpa using hp4)
            have hqplen : p.length = 4 + q.length := by
              have hl := congrArg List.length hq
              simp only [List.length_append, List.length_cons,
                List.length_nil] at hl
              omega
            by_cases hql : q.length < body.length
            · obtain ⟨r1, hsub, hr1⟩ := sub_split q r body tb htl hql
              have hseq := decodeSeq_prefix loads f es hokE hpreE body hb
                q r1 hsub hr1 (by omega)
              have hs2 : decodeSeq (decodeTermF loads f) (beVal [a, b, c, d]) q
                  = Except.error DErr.incomplete := by
                rw [hbe]
                exact hseq
              rw [hq]
              exact dec_list_err loads f a b c d q DErr.incomplete hs2
            · push_neg at hql
              obtain ⟨q2, hq2, htl2⟩ := hdr_split q r body tb htl hql
              have hq2len : q.length = body.length + q2.length := by
                have hl := congrArg List.length hq2
                simp only [List.length_append] at hl
                omega
              have hIH : ∀ e ∈ es, canonB e = true →
                  ∀ E2, encode_term e = Option.some E2 →
                  ∀ r2 fuel2, E2.length + r2.length < fuel2 →
                    decodeTermF loads fuel2 (E2 ++ r2) = Except.ok (e, r2) :=
                fun e _ hce E2 hE2 r2 fuel2 hf2 =>
                  dec_enc_core loads (tsize e) e le_rfl hce E2 hE2 r2 fuel2 hf2
              have hseq : decodeSeq (decodeTermF loads f) es.length (body ++ q2)
                  = Except.ok (es, q2) :=
                decodeSeq_exact loads es hIH hcl body hb q2 f (by omega)
              rcases hq2c : q2 with _ | ⟨h2b, q3⟩
              · have hs2 : decodeSeq (decodeTermF loads f) (beVal [a, b, c, d]) q
                    = Except.ok (es, []) := by
                  rw [hbe, hq2, hq2c]
                  simpa [hq2c] using hseq
                rw [hq]
                exact dec_list_nil_tail loads f a b c d q es hs2
              · obtain ⟨hd2, tl2, htbe, hdne⟩ := enc_head_ne_nil tl hctl hnpl tb htb
                have hhead : h2b = hd2 ∧ q3 ++ r = tl2 := by
                  rw [hq2c] at htl2
                  rw [htbe] at htl2
                  simp only [List.cons_append, List.cons.injEq] at htl2
                  exact htl2
                have hdterm : decodeTermF loads f (h2b :: q3)
                    = Except.error DErr.incomplete := by
                  have := ihN tl hszN.2 hctl tb htb (h2b :: q3) r
                    (by rw [← hq2c]; exact htl2) hr f (by
                      rw [← hq2c]
                      omega)
                  exact this
                have hs2 : decodeSeq (decodeTermF loads f) (beVal [a, b, c, d])
                    (body ++ (h2b :: q3)) = Except.ok (es, h2b :: q3) := by
                  rw [hbe]
                  rw [← hq2c]
                  exact hseq
                have hgoal := dec_list_improper_err loads f a b c d h2b
                  (body ++ (h2b :: q3)) es q3 DErr.incomplete hs2
                  (by rw [hhead.1]; exact hdne) hdterm
                rw [hq, hq2, hq2c]
                exact hgoal
      | .opaqueObject data lang, _ =>
          have hc' := hc
          simp only [canonB, Bool.and_eq_true] at hc'
          obtain ⟨⟨⟨⟨⟨⟨hdlB, hdaB⟩, hllB⟩, hlaB⟩, hresB⟩, hnpyB⟩, hnerB⟩ := hc'
          have hll : lang.length ≤ 255 := by simpa using hllB
          have hner : ¬(lang = erlangBytes) := by simpa using hnerB
          have hdl : data.length ≤ 4294967295 := by simpa using hdlB
          simp only [encode_term] at hE
          rw [if_neg hner] at hE
          have hm : encAtom markerBytes
              = Option.some (100 :: int2BE markerBytes.length ++ markerBytes) := by
            rw [encAtom, if_pos (by decide)]
          have hl2 : encAtom lang
              = Option.some (100 :: int2BE lang.length ++ lang) := by
            rw [encAtom, if_pos (by omega)]
          have hd2 : encBytesE data
              = Option.some (109 :: int4BE data.length ++ data) := by
            rw [encBytesE, if_pos hdl]
          rw [hm, hl2, hd2] at hE
          simp only [Bind.bind, Option.some_bind, Option.some.injEq] at hE
          subst hE
          have hca2 : canonB (Term.atom lang) = true := by
            simp only [canonB, Bool.and_eq_true]
            exact ⟨⟨hllB, hlaB⟩, hresB⟩
          have hcb3 : canonB (Term.bytes data) = true := by
            simp only [canonB, Bool.and_eq_true]
            exact ⟨hdlB, hdaB⟩
          have hea1 : encode_term (Term.atom markerBytes)
              = Option.some (100 :: int2BE markerBytes.length ++ markerBytes) := hm
          have hea2 : encode_term (Term.atom lang)
              = Option.some (100 :: int2BE lang.length ++ lang) := hl2
          have heb3 : encode_term (Term.bytes data)
              = Option.some (109 :: int4BE data.length ++ data) := hd2
          have hokE : ∀ e ∈ [Term.atom markerBytes, Term.atom lang,
              Term.bytes data], ∀ E2, encode_term e = Option.some E2 →
              ∀ r2, E2.length + r2.length < f →
                decodeTermF loads f (E2 ++ r2) = Except.ok (e, r2) := by
            intro e he E2 hE2 r2 hl2f
            have hce : canonB e = true := by
              simp only [List.mem_cons, List.mem_singleton,
                List.not_mem_nil, or_false] at he
              rcases he with he | he | he <;> subst he
              · decide
              · exact hca2
              · exact hcb3
            exact dec_enc_core loads (tsize e) e le_rfl hce E2 hE2 r2 f hl2f
          have hpreE : ∀ e ∈ [Term.atom markerBytes, Term.atom lang,
              Term.bytes data], ∀ E2, encode_term e = Option.some E2 →
              ∀ p2 r2, p2 ++ r2 = E2 → r2 ≠ [] → p2.length < f →
                decodeTermF loads f p2 = Except.error DErr.incomplete := by
            intro e he E2 hE2 p2 r2 hp2 hr2 hl2f
            rcases f with _ | f2
            · omega
            simp only [List.mem_cons, List.mem_singleton,
              List.not_mem_nil, or_false] at he
            rcases he with he | he | he <;> subst he
            · rw [hea1] at hE2
              simp only [Option.some.injEq] at hE2
              subst hE2
              exact atom_trunc loads f2 markerBytes p2 r2 (by decide) hp2 hr2
            · rw [hea2] at hE2
              simp only [Option.some.injEq] at hE2
              subst hE2
              exact atom_trunc loads f2 lang p2 r2 (by omega) hp2 hr2
            · rw [heb3] at hE2
              simp only [Option.some.injEq] at hE2
              subst hE2
              exact bin_trunc loads f2 data p2 r2 hdl hp2 hr2
          have hbody3 : encodeSeq [Term.atom markerBytes, Term.atom lang,
              Term.bytes data] = Option.some
              ((100 :: int2BE markerBytes.length ++ markerBytes)
                ++ ((100 :: int2BE lang.length ++ lang)
                  ++ (109 :: int4BE data.length ++ data))) := by
            simp only [encodeSeq, hea1, hea2, heb3, Bind.bind, Option.some_bind,
              Option.some.injEq, List.append_nil]
          rcases p with _ | ⟨p0, p⟩
          · exact dtf_incomplete_nil loads f
          simp only [List.cons_append, List.append_assoc, List.cons.injEq] at hp
          obtain ⟨h0c, hp⟩ := hp
          subst h0c
          rcases p with _ | ⟨p1, p⟩
          · exact trunc_tuple1 loads f
          simp only [List.cons_append, List.cons.injEq] at hp
          obtain ⟨h1c, hp⟩ := hp
          subst h1c
          simp only [List.length_cons] at hfuel
          have hseq := decodeSeq_prefix loads f
            [Term.atom markerBytes, Term.atom lang, Term.bytes data]
            hokE hpreE _ hbody3 p r (by simpa [List.append_assoc] using hp)
            hr (by omega)
          exact dec_tuple_small_err loads f 3 p DErr.incomplete hseq

end ErlTerms
namespace ErlTerms

/-! ## Top-level `encode`/`decode` bridges and the claims -/

/-- The encoding of a canonical term never starts with the compressed
marker `P` (80), so a plain encoding is never mistaken for a
compressed envelope at the top level. -/
theorem enc_head_ne_p (t : Term) (hc : canonB t = true)
    (E : List Nat) (hE : encode_term t = Option.some E) :
    ∃ hd tl2, E = hd :: tl2 ∧ hd ≠ 80 := by
  match t with
  | .int n =>
      simp only [encode_term, encInt] at hE
      split_ifs at hE <;>
        (simp only [Option.some.injEq] at hE
         subst hE)
      all_goals
        first
          | exact ⟨97, _, rfl, by decide⟩
          | exact ⟨98, _, rfl, by decide⟩
          | exact ⟨110, _, rfl, by decide⟩
          | exact ⟨111, _, rfl, by decide⟩
  | .float bits =>
      simp only [encode_term, Option.some.injEq] at hE
      subst hE
      exact ⟨70, _, rfl, by decide⟩
  | .atom name =>
      simp only [encode_term, encAtom] at hE
      split_ifs at hE
      simp only [Option.some.injEq] at hE
      subst hE
      exact ⟨100, _, rfl, by decide⟩
  | .bytes data =>
      simp only [encode_term, encBytesE] at hE
      split_ifs at hE
      simp only [Option.some.injEq] at hE
      subst hE
      exact ⟨109, _, rfl, by decide⟩
  | .charlist cs => simp [canonB] at hc
  | .list es =>
      simp only [encode_term] at hE
      split_ifs at hE with h0 h1
      · simp only [Option.some.injEq] at hE
        subst hE
        exact ⟨106, _, rfl, by decide⟩
      · rcases hcb : compactBytes es with _ | bs <;> rw [hcb] at hE
        · rcases hs : encodeSeq es with _ | body <;> rw [hs] at hE
          · simp [Bind.bind] at hE
          · simp only [Bind.bind, Option.some_bind, Option.some.injEq] at hE
            subst hE
            exact ⟨108, _, rfl, by decide⟩
        · simp only [Option.some.injEq] at hE
          subst hE
          exact ⟨107, _, rfl, by decide⟩
      · rcases hs : encodeSeq es with _ | body <;> rw [hs] at hE
        · simp [Bind.bind] at hE
        · simp only [Bind.bind, Option.some_bind, Option.some.injEq] at hE
          subst hE
          exact ⟨108, _, rfl, by decide⟩
  | .improper es tl =>
      simp only [encode_term] at hE
      split_ifs at hE
      rcases hs : encodeSeq es with _ | body <;> rw [hs] at hE
      · simp [Bind.bind] at hE
      rcases hs2 : encode_term tl with _ | tb <;> rw [hs2] at hE
      · simp [Bind.bind] at hE
      simp only [Bind.bind, Option.some_bind, Option.some.injEq] at hE
      subst hE
      exact ⟨108, _, rfl, by decide⟩
  | .tuple es =>
      simp only [encode_term] at hE
      split_ifs at hE
      · rcases hs : encodeSeq es with _ | body <;> rw [hs] at hE
        · simp [Bind.bind] at hE
        · simp only [Bind.bind, Option.some_bind, Option.some.injEq] at hE
          subst hE
          exact ⟨104, _, rfl, by decide⟩
      · rcases hs : encodeSeq es with _ | body <;> rw [hs] at hE
        · simp [Bind.bind] at hE
        · simp only [Bind.bind, Option.some_bind, Option.some.injEq] at hE
          subst hE
          exact ⟨105, _, rfl, by decide⟩
  | .bool b =>
      rcases b
      · rw [show encode_term (Term.bool false)
          = Option.some (100 :: int2BE 5 ++ strBytes "false") from rfl] at hE
        simp only [Option.some.injEq] at hE
        subst hE
        exact ⟨100, _, rfl, by decide⟩
      · rw [show encode_term (Term.bool true)
          = Option.some (100 :: int2BE 4 ++ strBytes "true") from rfl] at hE
        simp only [Option.some.injEq] at hE
        subst hE
        exact ⟨100, _, rfl, by decide⟩
  | .none =>
      simp only [encode_term, Option.some.injEq] at hE
      subst hE
      exact ⟨100, _, rfl, by decide⟩
  | .opaqueObject data lang =>
      have hlang : ¬(lang = erlangBytes) := by
        simp only [canonB, Bool.and_eq_true, bne_iff_ne, ne_eq] at hc
        exact hc.2
      simp only [encode_term] at hE
      rw [if_neg hlang] at hE
      rcases h1 : encAtom markerBytes with _ | m <;> rw [h1] at hE
      · simp at hE
      rcases h2 : encAtom lang with _ | l <;> rw [h2] at hE
      · simp [Bind.bind] at hE
      rcases h3 : encBytesE data with _ | d <;> rw [h3] at hE
      · simp [Bind.bind] at hE
      simp only [Bind.bind, Option.some_bind, Option.some.injEq] at hE
      subst hE
      exact ⟨104, _, rfl, by decide⟩

/-- With compression off, `encode` is the version byte followed by the
body produced by `encode_term`. -/
theorem encode_disabled (cf : Nat → List Nat → List Nat) (t : Term)
    (e : List Nat) (he : encode_term t = Option.some e) :
    encode cf t Compression.disabled = Option.some (131 :: e) := by
  unfold encode
  rw [he]
  rfl

/-- With compression off, `encode` fails exactly when `encode_term`
fails. -/
theorem encode_disabled_none (cf : Nat → List Nat → List Nat) (t : Term)
    (he : encode_term t = Option.none) :
    encode cf t Compression.disabled = Option.none := by
  unfold encode
  rw [he]
  rfl

end ErlTerms

namespace ErlTerms

set_option maxRecDepth 8192 in
/-- C1 (amended): for every canonical representable term — `canonB`
cuts out the representational collapses the codec deliberately makes,
such as `unicode` strings and reserved atom texts — whose encoding
succeeds, decoding the uncompressed encoding returns the term itself
together with an empty remainder. -/
theorem C1_round_trip (loads : List Nat → Term)
    (df : List Nat → List Nat × List Nat) (cf : Nat → List Nat → List Nat)
    (t : Term) (hc : canonB t = true) (E : List Nat)
    (hE : encode cf t Compression.disabled = Option.some E) :
    decode loads df E = Except.ok (t, []) := by
  rcases he : encode_term t with _ | e
  · rw [encode_disabled_none cf t he] at hE
    exact absurd hE (by simp)
  rw [encode_disabled cf t e he] at hE
  simp only [Option.some.injEq] at hE
  subst hE
  obtain ⟨hd, tl2, hee, hdne⟩ := enc_head_ne_p t hc e he
  simp only [decode]
  rw [if_neg (by simp)]
  rw [hee]
  rw [if_neg (by simp [hdne])]
  rw [← hee]
  show decodeTermF loads (e.length + 1) e = Except.ok (t, [])
  have hcore := dec_enc_core loads (tsize t) t le_rfl hc e he [] (e.length + 1)
    (by simp)
  simpa using hcore

/-- C1 counterexample: the literal claim fails for a representable
`unicode` string — `String(u"hi")` encodes through `map(ord, ...)` and
decodes back as a plain list of integers, not the original string. -/
theorem C1_counterexample :
    encode (fun _ d => d) (Term.charlist [104, 105]) Compression.disabled
        = Option.some [131, 107, 0, 2, 104, 105] ∧
    decode (fun _ => Term.none) (fun b => (b, [])) [131, 107, 0, 2, 104, 105]
        = Except.ok (Term.list [Term.int 104, Term.int 105], []) ∧
    Term.list [Term.int 104, Term.int 105] ≠ Term.charlist [104, 105] := by
  refine ⟨rfl, rfl, ?_⟩
  intro h
  exact Term.noConfusion h

/-- C1 witness: the round trip at the concrete canonical term `5`. -/
theorem C1_round_trip_witness :
    canonB (Term.int 5) = true ∧
    decode (fun _ => Term.none) (fun b => (b, [])) [131, 97, 5]
      = Except.ok (Term.int 5, []) :=
  ⟨by decide, C1_round_trip (fun _ => Term.none) (fun b => (b, []))
    (fun _ d => d) (Term.int 5) (by decide) [131, 97, 5] (by rfl)⟩

set_option maxRecDepth 8192 in
/-- C2 (amended): for every canonical term whose uncompressed encoding
succeeds, decoding any strict prefix of that encoding (including the
empty one) fails with `IncompleteData` — never a hard parse error or a
wrong value. The correction restricts the claim to canonical terms:
an `OpaqueObject` with language `erlang` emits its raw bytes verbatim,
and a strict prefix of such an encoding can hit the unsupported-data
`ValueError` instead (see the counterexample). -/
theorem C2_truncation_safety (loads : List Nat → Term)
    (df : List Nat → List Nat × List Nat) (cf : Nat → List Nat → List Nat)
    (t : Term) (hc : canonB t = true) (E : List Nat)
    (hE : encode cf t Compression.disabled = Option.some E)
    (p r : List Nat) (hp : p ++ r = E) (hr : r ≠ []) :
    decode loads df p = Except.error DErr.incomplete := by
  rcases he : encode_term t with _ | e
  · rw [encode_disabled_none cf t he] at hE
    exact absurd hE (by simp)
  rw [encode_disabled cf t e he] at hE
  simp only [Option.some.injEq] at hE
  subst hE
  rcases p with _ | ⟨p0, p⟩
  · rfl
  simp only [List.cons_append, List.cons.injEq] at hp
  obtain ⟨h0c, hp⟩ := hp
  subst h0c
  rcases p with _ | ⟨p1, p⟩
  · rfl
  obtain ⟨hd, tl2, hee, hdne⟩ := enc_head_ne_p t hc e he
  have hp1 : p1 = hd := by
    have hp' := hp
    rw [hee] at hp'
    simp only [List.cons_append, List.cons.injEq] at hp'
    exact hp'.1
  simp only [decode]
  rw [if_neg (by simp)]
  rw [if_neg (by simp [hp1, hdne])]
  show decodeTermF loads ((p1 :: p).length + 1) (p1 :: p)
    = Except.error DErr.incomplete
  exact pre_core loads (tsize t) t le_rfl hc e he (p1 :: p) r hp hr
    ((p1 :: p).length + 1) (by omega)

/-- C2 counterexample: the literal claim fails for a valid encoding of
an `OpaqueObject` with language `erlang`, whose data is emitted
verbatim: a strict prefix decodes to the hard `ValueError`
(`unsupported data`), not `IncompleteData`. -/
theorem C2_counterexample :
    encode (fun _ d => d) ( Term.opaqueObject [0, 0] erlangBytes) Compression.disabled
        = Option.some [131, 0, 0] ∧
    ([131, 0] : List Nat) ++ [0] = [131, 0, 0] ∧
    decode (fun _ => Term.none) (fun b => (b, [])) [131, 0]
        = Except.error DErr.invalid ∧
    DErr.invalid ≠ DErr.incomplete :=
  ⟨rfl, rfl, rfl, by decide⟩

/-- C2 witness: truncating the encoding of `5` after the tag byte. -/
theorem C2_truncation_safety_witness :
    canonB (Term.int 5) = true ∧
    ([131, 97] : List Nat) ++ [5] = [131, 97, 5] ∧
    decode (fun _ => Term.none) (fun b => (b, [])) [131, 97]
      = Except.error DErr.incomplete :=
  ⟨by decide, rfl, C2_truncation_safety (fun _ => Term.none) (fun b => (b, []))
    (fun _ d => d) (Term.int 5) (by decide) [131, 97, 5] (by rfl) [131, 97] [5]
    rfl (by decide)⟩

/-- C8: the empty buffer and the lone version byte are
`IncompleteData`; a non-empty buffer with a wrong leading byte is the
hard `InvalidVersion` error. -/
theorem C8_version_check (loads : List Nat → Term)
    (df : List Nat → List Nat × List Nat) :
    decode loads df [] = Except.error DErr.incomplete ∧
    decode loads df [131] = Except.error DErr.incomplete ∧
    ∀ v rest, v ≠ 131 →
      decode loads df (v :: rest) = Except.error DErr.badVersion := by
  refine ⟨rfl, rfl, ?_⟩
  intro v rest hv
  simp only [decode]
  rw [if_pos hv]

/-- C8 witness: the wrong-version branch at the concrete byte 0. -/
theorem C8_version_check_witness :
    decode (fun _ => Term.none) (fun b => (b, [])) [0]
      = Except.error DErr.badVersion :=
  (C8_version_check (fun _ => Term.none) (fun b => (b, []))).2.2 0 []
    (by decide)

/-- C9: whenever `decode_term` succeeds, the returned remainder is a
proper suffix of the input buffer — the call consumed a non-empty
prefix. -/
theorem C9_consume (loads : List Nat → Term) (buf : List Nat) (t : Term)
    (r : List Nat) (h : decode_term loads buf = Except.ok (t, r)) :
    r.length < buf.length ∧ ∃ c, c ++ r = buf ∧ c ≠ [] := by
  obtain ⟨hlt, hsuf⟩ := decodeTermF_consume loads (buf.length + 1) buf t r h
  obtain ⟨c, hcx⟩ := hsuf
  refine ⟨hlt, c, hcx, ?_⟩
  intro hnil
  subst hnil
  rw [List.nil_append] at hcx
  subst hcx
  exact absurd hlt (lt_irrefl _)

/-- C9 witness: decoding a small integer consumes its two bytes. -/
theorem C9_consume_witness :
    ([9] : List Nat).length < ([97, 5, 9] : List Nat).length ∧
    ∃ c, c ++ [9] = [97, 5, 9] ∧ c ≠ ([] : List Nat) :=
  C9_consume (fun _ => Term.none) [97, 5, 9] (Term.int 5) [9] rfl

end ErlTerms
namespace ErlTerms

set_option maxRecDepth 8192 in
/-- C3 (amended): the compressed envelope is kept exactly when
`len(zlib_term) + 5 <= len(encoded_term)`; when the compressed payload
plus the 5 envelope bytes after the version byte exceeds the plain
body, the attempt is discarded and the output byte-equals the
uncompressed encoding. The correction moves the boundary: at exact
equality of total sizes the code keeps the compressed form, while the
spec's "not smaller" wording would discard it (see the
counterexample). -/
theorem C3_compression_fallback (cf : Nat → List Nat → List Nat) (t : Term)
    (c : Compression) (hc : c.truthy = true) (e : List Nat)
    (he : encode_term t = Option.some e)
    (hbig : e.length < (cf c.levelValue e).length + 5) :
    encode cf t c = Option.some (131 :: e) ∧
    ∀ cf2, encode cf t c = encode cf2 t Compression.disabled := by
  have hkeep : encode cf t c = Option.some (131 :: e) := by
    unfold encode
    rw [he]
    simp only [Option.some_bind, Bind.bind]
    rw [if_pos hc, if_neg (by omega)]
  refine ⟨hkeep, fun cf2 => ?_⟩
  rw [hkeep, encode_disabled cf2 t e he]

/-- C3 counterexample: at the exact boundary — compressed total equal
to the plain total — the code keeps the compressed envelope, so the
output differs from the uncompressed encoding although the compressed
form is not smaller. -/
theorem C3_counterexample :
    encode_term (Term.bytes [1, 2, 3, 4])
        = Option.some [109, 0, 0, 0, 4, 1, 2, 3, 4] ∧
    ([0, 0, 0, 0] : List Nat).length + 5 + 1
        = ([109, 0, 0, 0, 4, 1, 2, 3, 4] : List Nat).length + 1 ∧
    encode (fun _ _ => [0, 0, 0, 0]) (Term.bytes [1, 2, 3, 4]) Compression.enabled
        = Option.some [131, 80, 0, 0, 0, 9, 0, 0, 0, 0] ∧
    encode (fun _ _ => [0, 0, 0, 0]) (Term.bytes [1, 2, 3, 4]) Compression.disabled
        = Option.some [131, 109, 0, 0, 0, 4, 1, 2, 3, 4] ∧
    ([131, 80, 0, 0, 0, 9, 0, 0, 0, 0] : List Nat)
        ≠ [131, 109, 0, 0, 0, 4, 1, 2, 3, 4] :=
  ⟨rfl, rfl, rfl, rfl, by decide⟩

/-- C3 witness: an incompressible term (the mock compressor returns 7
bytes against a 6-byte body) falls back to the plain encoding. -/
theorem C3_compression_fallback_witness :
    Compression.truthy Compression.enabled = true ∧
    encode (fun _ _ => [9, 9, 9, 9, 9, 9, 9]) (Term.bytes [1])
        Compression.enabled
      = Option.some (131 :: [109, 0, 0, 0, 1, 1]) ∧
    encode (fun _ _ => [9, 9, 9, 9, 9, 9, 9]) (Term.bytes [1])
        Compression.enabled
      = encode (fun _ d => d) (Term.bytes [1]) Compression.disabled := by
  have h := C3_compression_fallback (fun _ _ => [9, 9, 9, 9, 9, 9, 9])
    (Term.bytes [1]) Compression.enabled (by decide) [109, 0, 0, 0, 1, 1]
    (by rfl) (by decide)
  exact ⟨by decide, h.1, h.2 (fun _ d => d)⟩

set_option maxRecDepth 8192 in
/-- C4: whenever both calls succeed, the output of `encode` with
compression (level 6) is never longer than the output with compression
disabled: the compressed envelope is kept only when its total size
(payload + 5 bytes + version byte) is at most the plain total. -/
theorem C4_no_inflation (cf : Nat → List Nat → List Nat) (t : Term)
    (E1 E2 : List Nat)
    (h1 : encode cf t (Compression.level 6) = Option.some E1)
    (h2 : encode cf t Compression.disabled = Option.some E2) :
    E1.length ≤ E2.length := by
  rcases he : encode_term t with _ | e
  · rw [encode_disabled_none cf t he] at h2
    exact absurd h2 (by simp)
  rw [encode_disabled cf t e he] at h2
  simp only [Option.some.injEq] at h2
  subst h2
  unfold encode at h1
  rw [he] at h1
  simp only [Option.some_bind, Bind.bind] at h1
  rw [if_pos (by decide)] at h1
  by_cases hz : (cf (Compression.level 6).levelValue e).length + 5 ≤ e.length
  · rw [if_pos hz] at h1
    by_cases hfit : e.length ≤ 4294967295
    · rw [if_pos hfit] at h1
      simp only [Option.some.injEq] at h1
      subst h1
      simp only [List.length_cons, List.length_append, int4BE, List.length_nil]
      omega
    · rw [if_neg hfit] at h1
      exact absurd h1 (by simp)
  · rw [if_neg hz] at h1
    simp only [Option.some.injEq] at h1
    subst h1
    exact le_rfl

/-- C4 witness: a mock compressor that compresses to nothing — the
compressed output (6 bytes) is no longer than the plain one (9). -/
theorem C4_no_inflation_witness :
    ([131, 80, 0, 0, 0, 8] : List Nat).length
      ≤ ([131, 109, 0, 0, 0, 3, 1, 2, 3] : List Nat).length :=
  C4_no_inflation (fun _ _ => []) (Term.bytes [1, 2, 3])
    [131, 80, 0, 0, 0, 8] [131, 109, 0, 0, 0, 3, 1, 2, 3] rfl rfl

set_option maxRecDepth 8192 in
/-- C5: the three reserved atom texts decode to the boolean constants
and the no-value sentinel (never an `Atom`), and encoding those three
values emits exactly the fixed atom encodings — not the integer
encodings of `1` and `0`, since the boolean branches run before the
integer branch. -/
theorem C5_reserved_atoms (loads : List Nat → Term) (fuel : Nat)
    (rest : List Nat) :
    decodeTermF loads (fuel + 1) (100 :: int2BE 4 ++ strBytes "true" ++ rest)
        = Except.ok (Term.bool true, rest) ∧
    decodeTermF loads (fuel + 1) (100 :: int2BE 5 ++ strBytes "false" ++ rest)
        = Except.ok (Term.bool false, rest) ∧
    decodeTermF loads (fuel + 1) (100 :: int2BE 9 ++ strBytes "undefined" ++ rest)
        = Except.ok (Term.none, rest) ∧
    encode_term (Term.bool true) = Option.some (100 :: int2BE 4 ++ strBytes "true") ∧
    encode_term (Term.bool false) = Option.some (100 :: int2BE 5 ++ strBytes "false") ∧
    encode_term Term.none = Option.some (100 :: int2BE 9 ++ strBytes "undefined") ∧
    encode_term (Term.bool true) ≠ encode_term (Term.int 1) ∧
    encode_term (Term.bool false) ≠ encode_term (Term.int 0) := by
  refine ⟨?_, ?_, ?_, rfl, rfl, rfl, by decide, by decide⟩
  · rw [show ((100 :: int2BE 4 ++ strBytes "true" ++ rest : List Nat))
      = 100 :: int2BE (strBytes "true").length ++ strBytes "true" ++ rest
      from rfl]
    rw [dec_atom loads fuel (strBytes "true") rest (by decide)]
    rw [if_pos rfl]
  · rw [show ((100 :: int2BE 5 ++ strBytes "false" ++ rest : List Nat))
      = 100 :: int2BE (strBytes "false").length ++ strBytes "false" ++ rest
      from rfl]
    rw [dec_atom loads fuel (strBytes "false") rest (by decide)]
    rw [if_neg (by decide), if_pos rfl]
  · rw [show ((100 :: int2BE 9 ++ strBytes "undefined" ++ rest : List Nat))
      = 100 :: int2BE (strBytes "undefined").length ++ strBytes "undefined" ++ rest
      from rfl]
    rw [dec_atom loads fuel (strBytes "undefined") rest (by decide)]
    rw [if_neg (by decide), if_neg (by decide), if_pos rfl]

set_option maxRecDepth 8192 in
/-- C6: `255` takes the 2-byte small-integer form and `256` the 4-byte
signed form; `2^100` and `-2^100` round-trip exactly through the
sign-plus-little-endian-magnitude bignum form (`SMALL_BIG_EXT`,
tag 110). -/
theorem C6_integer_boundaries (loads : List Nat → Term) :
    encode_term (Term.int 255) = Option.some [97, 255] ∧
    encode_term (Term.int 256) = Option.some [98, 0, 0, 1, 0] ∧
    (∃ E, encode_term (Term.int (2 ^ 100)) = Option.some E ∧
      E.take 1 = [110] ∧
      decode_term loads E = Except.ok (Term.int (2 ^ 100), [])) ∧
    (∃ E, encode_term (Term.int (-2 ^ 100)) = Option.some E ∧
      E.take 1 = [110] ∧
      decode_term loads E = Except.ok (Term.int (-2 ^ 100), [])) := by
  refine ⟨rfl, rfl, ⟨_, rfl, rfl, ?_⟩, ⟨_, rfl, rfl, ?_⟩⟩
  · show decodeTermF loads _ _ = _
    rfl
  · show decodeTermF loads _ _ = _
    rfl

set_option maxRecDepth 8192 in
/-- C7: a decoded 3-tuple headed by the reserved marker atom is routed
through `OpaqueObject.decode` instead of being returned as a plain
tuple; language `python` hands the data bytes to the native
deserializer `loads`, any other language yields an
`OpaqueObject(data, language)`. -/
theorem C7_opaque_dispatch (loads : List Nat → Term) (b c : Term)
    (rest : List Nat) :
    (finishTuple loads [Term.atom markerBytes, b, c] rest
      = (decodeOpaque loads c b).bind (fun t2 => Except.ok (t2, rest))) ∧
    (∀ d, decodeOpaque loads (Term.bytes d) (Term.atom pythonBytes)
      = Except.ok (loads d)) ∧
    (∀ d lg, lg ≠ pythonBytes →
      decodeOpaque loads (Term.bytes d) (Term.atom lg)
        = Except.ok ( Term.opaqueObject d lg)) := by
  refine ⟨?_, ?_, ?_⟩
  · simp only [finishTuple]
    rw [if_pos (show pyStrEq (Term.atom markerBytes) markerBytes = true by
      simp [pyStrEq])]
    rfl
  · intro d
    delta decodeOpaque
    rw [show pyStrEq (Term.atom pythonBytes) pythonBytes = true by
      simp [pyStrEq]]
    rfl
  · intro d lg hlg
    delta decodeOpaque
    rw [show pyStrEq (Term.atom lg) pythonBytes = false by
      simp [pyStrEq, hlg]]
    rfl

/-- C7 witness: a non-`python` language yields the unresolved
`OpaqueObject` carrying the raw bytes and the language tag. -/
theorem C7_opaque_dispatch_witness :
    decodeOpaque (fun _ => Term.none) (Term.bytes [1]) (Term.atom erlangBytes)
      = Except.ok ( Term.opaqueObject [1] erlangBytes) :=
  (C7_opaque_dispatch (fun _ => Term.none) (Term.atom erlangBytes)
    (Term.bytes [1]) []).2.2 [1] erlangBytes (by decide)

/-- The compact-string attempt succeeds on any list of booleans and
in-range integers, storing each element's coerced byte. -/
theorem compactBytes_of_all : ∀ es : List Term,
    (∀ e ∈ es, (∃ b, e = Term.bool b) ∨
      ∃ n : Int, e = Term.int n ∧ 0 ≤ n ∧ n ≤ 255) →
    compactBytes es = Option.some (es.map pyByte) := by
  intro es
  induction es with
  | nil =>
      intro _
      rfl
  | cons e ts ih =>
      intro hall
      have hts := ih (fun e2 he2 => hall e2 (List.mem_cons_of_mem e he2))
      rcases hall e (List.mem_cons_self e ts) with ⟨b, hb⟩ | ⟨n, hn, h0, h255⟩
      · subst hb
        simp [compactBytes, hts, pyByte]
      · subst hn
        simp [compactBytes, hts, pyByte, h0, h255]

set_option maxRecDepth 8192 in
/-- C10: a non-empty list of at most 65535 elements that are all
booleans or integers in `[0, 255]` takes the compact `STRING_EXT`
form, with `True` written as byte 1 and `False` as byte 0 (their
integer coercions), not as the `true`/`false` atoms. -/
theorem C10_compact_bools (es : List Term) (hne : es ≠ [])
    (hlen : es.length ≤ 65535)
    (hall : ∀ e ∈ es, (∃ b, e = Term.bool b) ∨
      ∃ n : Int, e = Term.int n ∧ 0 ≤ n ∧ n ≤ 255) :
    encode_term (Term.list es)
      = Option.some (107 :: int2BE es.length ++ es.map pyByte) ∧
    pyByte (Term.bool true) = 1 ∧ pyByte (Term.bool false) = 0 := by
  refine ⟨?_, rfl, rfl⟩
  have hcb := compactBytes_of_all es hall
  simp only [encode_term]
  rw [if_neg (by simpa [List.length_eq_zero] using hne), if_pos hlen, hcb]

/-- C10 witness: `[True, False, 7]` becomes the compact string
`[107, 0, 3, 1, 0, 7]`. -/
theorem C10_compact_bools_witness :
    encode_term (Term.list [Term.bool true, Term.bool false, Term.int 7])
      = Option.some (107 :: int2BE 3
          ++ [Term.bool true, Term.bool false, Term.int 7].map pyByte) ∧
    pyByte (Term.bool true) = 1 ∧ pyByte (Term.bool false) = 0 :=
  C10_compact_bools [Term.bool true, Term.bool false, Term.int 7]
    (by simp) (by simp)
    (by
      intro e he
      simp only [List.mem_cons, List.not_mem_nil, or_false] at he
      rcases he with h | h | h
      · exact Or.inl ⟨true, h⟩
      · exact Or.inl ⟨false, h⟩
      · exact Or.inr ⟨7, h, by decide, by decide⟩)

end ErlTerms
